import Mathlib

/-!
Verification development for the PetalVault password manager
(files src/encrypt_decrypt.py, src/gui_main_window.py, src/view_dialog.py,
src/qr_scanner_thread.py).

Python byte strings are modelled as lists of naturals (`Bytes`), python
dictionaries with string keys and string values as insertion-ordered
association lists (`Dict`); python dictionaries never hold duplicate keys,
and assignment `d[k] = v` updates the first (unique) occurrence in place or
appends a fresh key at the end, which is exactly what `aset` does.

Library primitives that the source calls but does not implement (the AES
block permutation of pycryptodome, `zlib.compress`/`zlib.decompress`,
`hashlib.md5`, `json.dumps`/`json.loads` for entry records) are abstracted
as the fields of a `Prims` bundle; everything the source itself does with
them (CBC chaining layout, PKCS#7 padding, base64, checksum framing, the
error paths) is implemented concretely below and proved about.
-/

/-- A python byte string: a list of byte values. -/
abbrev Bytes := List Nat

/-- All values of a byte string are actual bytes. -/
def isBytes (b : Bytes) : Prop := ∀ x ∈ b, x < 256

instance (b : Bytes) : Decidable (isBytes b) := by
  unfold isBytes; infer_instance

instance {ε α : Type} [DecidableEq ε] [DecidableEq α] : DecidableEq (Except ε α) :=
  fun a b =>
    match a, b with
    | Except.error x, Except.error y =>
      if h : x = y then isTrue (h ▸ rfl) else isFalse fun hc => h (by injection hc)
    | Except.ok x, Except.ok y =>
      if h : x = y then isTrue (h ▸ rfl) else isFalse fun hc => h (by injection hc)
    | Except.error _, Except.ok _ => isFalse fun hc => Except.noConfusion hc
    | Except.ok _, Except.error _ => isFalse fun hc => Except.noConfusion hc

/-- A python `dict[str, str]`: insertion-ordered association list. -/
abbrev Dict := List (String × String)

/-- Python `d.get(k)` / `d[k]`: value of the first occurrence of key `k`. -/
def alookup {α : Type} : List (String × α) → String → Option α
  | [], _ => none
  | (k2, v) :: rest, k => if k2 = k then some v else alookup rest k

/-- Python `k in d`. -/
def hasKey {α : Type} (d : List (String × α)) (k : String) : Bool :=
  (alookup d k).isSome

/-- Python `d[k] = v`: replace the value of an existing key in place,
or append the key at the end. -/
def aset {α : Type} (k : String) (v : α) : List (String × α) → List (String × α)
  | [] => [(k, v)]
  | (k2, v2) :: rest => if k2 = k then (k, v) :: rest else (k2, v2) :: aset k v rest

/-- Python `del d[k]`: drop the (unique in a python dict) occurrence of `k`. -/
def aerase {α : Type} (k : String) : List (String × α) → List (String × α)
  | [] => []
  | (k2, v2) :: rest => if k2 = k then rest else (k2, v2) :: aerase k rest

/-- String key constants used by the vault records. -/
def kId : String := "id"

def kAct : String := "act"

def kEnc : String := "enc"

def kIv : String := "iv"

def kSite : String := "site"

def kUser : String := "user"

def kPass : String := "pass"

def kNotes : String := "notes"

def kNew : String := "new"

def kAdd : String := "add"

def kSync : String := "sync"

def kDelete : String := "delete"

def emptyS : String := ""

/-- The QR frame envelope keys `"i"` and `"acts"`. -/
def jKeyI : String := "i"

/-- The QR frame envelope key for the action list. -/
def jKeyActs : String := "acts"

/-- Value strings used by concrete inputs. -/
def sOne : String := "1"

/-- A second concrete value string. -/
def sTwo : String := "2"

/-- Value of base64 alphabet position `n` (`A-Za-z0-9+/`), as an ASCII code. -/
def b64chr (n : Nat) : Nat :=
  if n < 26 then 65 + n
  else if n < 52 then 97 + (n - 26)
  else if n < 62 then 48 + (n - 52)
  else if n = 62 then 43
  else 47

/-- Inverse of the base64 alphabet: ASCII code back to the 6-bit value. -/
def b64val (c : Nat) : Option Nat :=
  if 65 ≤ c ∧ c ≤ 90 then some (c - 65)
  else if 97 ≤ c ∧ c ≤ 122 then some (c - 97 + 26)
  else if 48 ≤ c ∧ c ≤ 57 then some (c - 48 + 52)
  else if c = 43 then some 62
  else if c = 47 then some 63
  else none

/-- `base64.b64encode`: bytes to ASCII codes of the standard padded encoding. -/
def b64encode : Bytes → Bytes
  | [] => []
  | [x] => [b64chr (x / 4), b64chr (x % 4 * 16), 61, 61]
  | [x, y] => [b64chr (x / 4), b64chr (x % 4 * 16 + y / 16), b64chr (y % 16 * 4), 61]
  | x :: y :: z :: rest =>
    b64chr (x / 4) :: b64chr (x % 4 * 16 + y / 16) :: b64chr (y % 16 * 4 + z / 64) ::
      b64chr (z % 64) :: b64encode rest

/-- `base64.b64decode` on ASCII codes (strict model: any character outside
the alphabet or misplaced padding yields `none`, the caller's error path). -/
def b64decode : Bytes → Option Bytes
  | [] => some []
  | a :: b :: c :: d :: rest =>
    match b64val a, b64val b with
    | some av, some bv =>
      if c = 61 then
        if d = 61 ∧ rest = [] then some [av * 4 + bv / 16] else none
      else
        match b64val c with
        | some cv =>
          if d = 61 then
            if rest = [] then some [av * 4 + bv / 16, bv % 16 * 16 + cv / 4] else none
          else
            match b64val d with
            | some dv =>
              match b64decode rest with
              | some tail =>
                some ((av * 4 + bv / 16) :: (bv % 16 * 16 + cv / 4) :: (cv % 4 * 64 + dv) :: tail)
              | none => none
            | none => none
        | none => none
    | _, _ => none
  | _ => none

/-- `Crypto.Util.Padding.pad(data, 16)` (PKCS#7). -/
def pad16 (b : Bytes) : Bytes :=
  let n := 16 - b.length % 16
  b ++ List.replicate n n

/-- `Crypto.Util.Padding.unpad(data, 16)` (PKCS#7); `none` is the raised
`ValueError` of pycryptodome. -/
def unpad16 (b : Bytes) : Option Bytes :=
  if b.length % 16 ≠ 0 then none
  else
    match b.getLast? with
    | none => none
    | some n =>
      if 1 ≤ n ∧ n ≤ min 16 b.length ∧ b.drop (b.length - n) = List.replicate n n then
        some (b.take (b.length - n))
      else none

/-- Byte-wise xor of two equal-length blocks. -/
def xorBlock (a b : Bytes) : Bytes := List.zipWith Nat.xor a b

/-- Split a byte string into consecutive 16-byte blocks (structural
recursion on a fuel counter bounded by the length). -/
def toBlocksGo : Nat → Bytes → List Bytes
  | _, [] => []
  | 0, _ => []
  | fuel + 1, l => l.take 16 :: toBlocksGo fuel (l.drop 16)

/-- Split a byte string into consecutive 16-byte blocks. -/
def toBlocks (b : Bytes) : List Bytes := toBlocksGo b.length b

/-- CBC encryption chaining of pycryptodome's `cipher.encrypt` over an
abstract one-block permutation `encB`; `prev` is the IV or previous
ciphertext block. -/
def cbcEncBlocks (encB : Bytes → Bytes) : Bytes → List Bytes → List Bytes
  | _, [] => []
  | prev, p :: ps =>
    let c := encB (xorBlock p prev)
    c :: cbcEncBlocks encB c ps

/-- CBC decryption chaining of `cipher.decrypt` over the inverse one-block
permutation `decB`. -/
def cbcDecBlocks (decB : Bytes → Bytes) : Bytes → List Bytes → List Bytes
  | _, [] => []
  | prev, c :: cs => xorBlock (decB c) prev :: cbcDecBlocks decB c cs

/-- The library primitives `encrypt_entry`/`decrypt_entry` call but do not
implement: the AES block permutation pair held by `AES.new(master_key, ...)`
(a valid 16- or 32-byte key yields such a pair), `zlib` level-9 compression
and its inverse, `hashlib.md5(...).digest()`, and the `json` module —
`jdumpsInner d` stands for `json.dumps(d, separators=(",", ":"),
ensure_ascii=False)[1:][:-1].encode("utf-8")` and `jloadsBrace s` for
`json.loads("{" + s.decode("utf-8") + "}")` with its error path. -/
structure Prims where
  encB : Bytes → Bytes
  decB : Bytes → Bytes
  md5 : Bytes → Bytes
  zcompress : Bytes → Bytes
  zdecompress : Bytes → Option Bytes
  jdumpsInner : Dict → Bytes
  jloadsBrace : Bytes → Option Dict

/-- The dictionary `{"enc": ..., "iv": ...}` produced by `encrypt_entry`;
the two base64 strings are held as their character codes. -/
structure EncDict where
  enc : Bytes
  iv : Bytes
deriving DecidableEq

/-- `encrypt_entry` (src/encrypt_decrypt.py lines 79-114): serialize the
record without its outer braces, append the md5 checksum, compress, pad,
CBC-encrypt under the fresh random `iv_bytes` (`secrets.token_bytes(16)`,
passed in explicitly here), and base64 both outputs.  With total library
primitives no exception path remains, so the result is always `some`. -/
def encrypt_entry (p : Prims) (iv_bytes : Bytes) (decrypted : Dict) : Option EncDict :=
  let entry_bytes := p.jdumpsInner decrypted
  let entry_checksum := p.md5 entry_bytes
  let entry_with_checksum := entry_bytes ++ entry_checksum
  let entry_compressed := p.zcompress entry_with_checksum
  let entry_padded := pad16 entry_compressed
  let entry_encrypted := (cbcEncBlocks p.encB iv_bytes (toBlocks entry_padded)).flatten
  some (EncDict.mk (b64encode entry_encrypted) (b64encode iv_bytes))

/-- `decrypt_entry` (src/encrypt_decrypt.py lines 34-76): base64-decode iv
and ciphertext, CBC-decrypt (pycryptodome rejects an IV that is not 16 bytes
and a ciphertext that is not a multiple of the block size), unpad,
decompress, split the trailing 16-byte checksum (python's `[:-16]`/`[-16:]`
slices), verify it, parse the record and require an `"id"` key.  Every
failure is caught by the source's `except` block and becomes `None`. -/
def decrypt_entry (p : Prims) (encrypted : EncDict) : Option Dict :=
  match b64decode encrypted.iv, b64decode encrypted.enc with
  | some iv_bytes, some entry_encrypted =>
    if iv_bytes.length = 16 ∧ entry_encrypted.length % 16 = 0 then
      let entry_decrypted := (cbcDecBlocks p.decB iv_bytes (toBlocks entry_encrypted)).flatten
      match unpad16 entry_decrypted with
      | some entry_unpadded =>
        match p.zdecompress entry_unpadded with
        | some entry_uncompressed =>
          let entry_bytes := entry_uncompressed.take (entry_uncompressed.length - 16)
          let entry_checksum_original := entry_uncompressed.drop (entry_uncompressed.length - 16)
          if p.md5 entry_bytes = entry_checksum_original then
            match p.jloadsBrace entry_bytes with
            | some entry_dict => if hasKey entry_dict kId then some entry_dict else none
            | none => none
          else none
        | none => none
      | none => none
    else none
  | _, _ => none

/-- UTF-8 encoding of one character (what python `str.encode("utf-8")` does
per code point). -/
def utf8Bytes (c : Char) : Bytes :=
  let n := c.toNat
  if n < 128 then [n]
  else if n < 2048 then [192 + n / 64, 128 + n % 64]
  else if n < 65536 then [224 + n / 4096, 128 + n / 64 % 64, 128 + n % 64]
  else [240 + n / 262144, 128 + n / 4096 % 64, 128 + n / 64 % 64, 128 + n % 64]

/-- ASCII code of a lowercase hexadecimal digit. -/
def hexDigit (n : Nat) : Nat := if n < 10 then 48 + n else 87 + n

/-- UTF-8 bytes that `json.dumps(..., ensure_ascii=False)` emits for one
character inside a string literal. -/
def jsonEscChar (c : Char) : Bytes :=
  let n := c.toNat
  if n = 34 then [92, 34]
  else if n = 92 then [92, 92]
  else if n = 10 then [92, 110]
  else if n = 13 then [92, 114]
  else if n = 9 then [92, 116]
  else if n = 8 then [92, 98]
  else if n = 12 then [92, 102]
  else if n < 32 then [92, 117, 48, 48, hexDigit (n / 16), hexDigit (n % 16)]
  else utf8Bytes c

/-- A JSON string literal, as UTF-8 bytes (code 34 is the double quote). -/
def jsonStr (s : String) : Bytes :=
  34 :: ((s.data.map jsonEscChar).flatten ++ [34])

/-- Join byte chunks with a separator (code 44 is the comma). -/
def joinSep (sep : Bytes) : List Bytes → Bytes
  | [] => []
  | [x] => x
  | x :: y :: rest => x ++ sep ++ joinSep sep (y :: rest)

/-- Decimal digits of a natural number, as ASCII codes. -/
def natStr (n : Nat) : Bytes := (Nat.repr n).data.map Char.toNat

/-- `json.dumps(d, separators=(",", ":"), ensure_ascii=False).encode("utf-8")`
for a flat string dictionary (codes 123/125 are the braces, 58 the colon). -/
def jsonDict (d : Dict) : Bytes :=
  123 :: (joinSep [44] (d.map fun kv => jsonStr kv.1 ++ 58 :: jsonStr kv.2) ++ [125])

/-- src/view_dialog.py line 35: byte budget of one QR frame. -/
def QR_LIMIT_BYTES : Nat := 500

/-- One in-progress `data_dict` of `ViewDialog._pre_show_or_exec`:
`{"i": <index>, "acts": [...]}` before `"n"` is back-filled. -/
structure FrameD where
  i : Nat
  acts : List Dict
deriving DecidableEq

/-- The UTF-8 bytes of
`json.dumps(data_dict, separators=(",", ":"), ensure_ascii=False)[1:][:-1]`
for a data_dict holding keys `"i"` and `"acts"` in insertion order -
exactly the string whose length the chunker compares with the budget. -/
def frameInner (i : Nat) (acts : List Dict) : Bytes :=
  jsonStr jKeyI ++ 58 :: natStr i ++ 44 :: jsonStr jKeyActs ++ 58 :: 91 ::
    (joinSep [44] (acts.map jsonDict) ++ [93])

/-- One iteration of the action loop of `ViewDialog._pre_show_or_exec`
(src/view_dialog.py lines 125-138): start a new data_dict when the index
has moved past the end, append the action to `data_dicts[index_data]`, and
advance `index_data` once the serialized dict reaches `QR_LIMIT_BYTES`. -/
def chunkStep (st : Nat × List FrameD) (action : Dict) : Nat × List FrameD :=
  let idx := st.1
  let ds0 := st.2
  let ds1 := if ds0.length ≤ idx then ds0 ++ [FrameD.mk idx []] else ds0
  let ds2 :=
    match ds1[idx]? with
    | some d => ds1.set idx (FrameD.mk d.i (d.acts ++ [action]))
    | none => ds1
  let size :=
    match ds2[idx]? with
    | some d => (frameInner d.i d.acts).length
    | none => 0
  if QR_LIMIT_BYTES ≤ size then (idx + 1, ds2) else (idx, ds2)

/-- The finished `data_dicts` list for an action list. -/
def data_dicts (actions : List Dict) : List FrameD :=
  (actions.foldl chunkStep (0, [])).2

/-- A parsed QR action frame as the scanner sees it: part index `i`,
back-filled part count `n`, and the decoded `acts` list. -/
structure QRFrame where
  i : Nat
  n : Nat
  acts : List Dict
deriving DecidableEq

/-- src/view_dialog.py lines 140-143: back-fill `"n"` (the final frame
count) into every data_dict, yielding the frames that are rendered. -/
def qr_frames (actions : List Dict) : List QRFrame :=
  let ds := data_dicts actions
  ds.map fun d => QRFrame.mk d.i ds.length d.acts

/-- The scanner's accumulation (src/qr_scanner_thread.py lines 108-111):
`for action in acts: if action not in self.actions: self.actions.append(action)`. -/
def dedupAppend (acc : List Dict) (acts : List Dict) : List Dict :=
  acts.foldl (fun a act => if act ∈ a then a else a ++ [act]) acc

/-- Processing of one decoded frame by `QRScannerThread.run`
(src/qr_scanner_thread.py lines 97-122).  State: (accumulated action list,
exit flag).  A frame with `part_idx >= parts_total` raises and is skipped;
otherwise its actions are deduplicated into the list and the scan
terminates when `part_idx == parts_total - 1`. -/
def scanStep (st : List Dict × Bool) (f : QRFrame) : List Dict × Bool :=
  if st.2 then st
  else if f.n ≤ f.i then st
  else
    let acc := dedupAppend st.1 f.acts
    if f.i = f.n - 1 then (acc, true) else (acc, false)

/-- The whole scan session over a sequence of decoded frames. -/
def qr_scan (frames : List QRFrame) : List Dict × Bool :=
  frames.foldl scanStep ([], false)

/-- Modelled from the spec's words for claim C4 only: the total size in
bytes of the "combined compact encoding" of an action list, read as the
compact JSON encoding of the list of actions (code 91/93 are the square
brackets). -/
def spec_combined_size (actions : List Dict) : Nat :=
  (91 :: (joinSep [44] (actions.map jsonDict) ++ [93])).length

/-- One call to `Crypto.Protocol.KDF.scrypt(password, salt, key_len, N, r, p)`
recorded with its parameters. -/
structure ScryptCall where
  password : Bytes
  salt : Bytes
  key_len : Nat
  n : Nat
  r : Nat
  p : Nat
deriving DecidableEq

namespace EncryptDecrypt

/-- src/encrypt_decrypt.py line 31: the module's cost parameter. -/
def MASTER_KEY_COST : Nat := 2 ^ 16

/-- The scrypt call performed by `entropy_to_master_key`
(src/encrypt_decrypt.py line 219). -/
def entropy_to_master_key_call (entropy master_salt : Bytes) : ScryptCall :=
  ScryptCall.mk entropy master_salt 32 MASTER_KEY_COST 8 1

/-- `entropy_to_master_key` over an abstract scrypt function (the salt is
`secrets.token_bytes(32)` when the caller passes none; the caller's salt is
threaded here). -/
def entropy_to_master_key (scryptFn : ScryptCall → Bytes) (entropy master_salt : Bytes) :
    Bytes × Bytes :=
  (scryptFn (entropy_to_master_key_call entropy master_salt), master_salt)

/-- The scrypt call performed by `encrypt_mnemonic`
(src/encrypt_decrypt.py line 129). -/
def encrypt_mnemonic_call (master_password master_salt_1 : Bytes) : ScryptCall :=
  ScryptCall.mk master_password master_salt_1 32 MASTER_KEY_COST 8 1

/-- The scrypt call performed by `decrypt_mnemonic`
(src/encrypt_decrypt.py line 163). -/
def decrypt_mnemonic_call (master_password master_salt_1 : Bytes) : ScryptCall :=
  ScryptCall.mk master_password master_salt_1 32 MASTER_KEY_COST 8 1

end EncryptDecrypt

namespace GuiMainWindow

/-- src/gui_main_window.py line 84: "CPU/Memory cost parameter for master
key derivation" - defined in the GUI module but never passed to any scrypt
call: every derivation goes through
`EncryptDecrypt.entropy_to_master_key`. -/
def MASTER_KEY_COST : Nat := 2 ^ 20

/-- The fixed field keys merged by `_vault_action`'s update branch
(src/gui_main_window.py line 779). -/
def FIXED_FIELD_KEYS : List String := [kSite, kUser, kPass, kNotes]

/-- `GUIMainWindow._id_to_entry` (src/gui_main_window.py lines 1214-1228):
first entry whose `item["id"]` equals `unique_id` together with its index;
`Except.error` is the `KeyError` raised when an entry visited before the
first match has no `"id"` key (caught by each caller's `except`). -/
def id_to_entry : List Dict → String → Except Unit (Option (Nat × Dict))
  | [], _ => Except.ok none
  | d :: ds, uid =>
    match alookup d kId with
    | none => Except.error ()
    | some v =>
      if v = uid then Except.ok (some (0, d))
      else
        match id_to_entry ds uid with
        | Except.ok none => Except.ok none
        | Except.ok (some (i, e)) => Except.ok (some (i + 1, e))
        | Except.error e => Except.error e

/-- Fold of python dict assignments `st[k] = incoming[k]` over the keys of
`ks` that are present in `incoming`. -/
def mergeOver (ks : List String) (st incoming : Dict) : Dict :=
  ks.foldl
    (fun acc k =>
      match alookup incoming k with
      | some v => aset k v acc
      | none => acc)
    st

/-- The update branch of `_vault_action` (src/gui_main_window.py lines
777-781): only the keys `site`, `user`, `pass`, `notes` present in the
incoming entry are written onto the stored entry. -/
def mergeFixed (stored incoming : Dict) : Dict :=
  mergeOver FIXED_FIELD_KEYS stored incoming

/-- The find-update-or-insert block of `_vault_action`
(src/gui_main_window.py lines 767-781) applied to the decrypted entry `e`
(which always carries an `"id"` by that point): update the first entry with
the same id in place through `mergeFixed`, or insert at the front. -/
def upsert_entry (vault : List Dict) (e : Dict) : List Dict :=
  match alookup e kId with
  | none => vault
  | some uid =>
    match id_to_entry vault uid with
    | Except.error _ => vault
    | Except.ok none => e :: vault
    | Except.ok (some (idx, stored)) => vault.set idx (mergeFixed stored e)

/-- `GUIMainWindow._delete_entry` without confirmation
(src/gui_main_window.py lines 1104-1131): remove the first entry with the
given id; not found, or a `KeyError` while searching, is a no-op. -/
def delete_entry (vault : List Dict) (uid : String) : List Dict :=
  match id_to_entry vault uid with
  | Except.error _ => vault
  | Except.ok none => vault
  | Except.ok (some (idx, _)) => vault.eraseIdx idx

/-- The `"enc"`/`"iv"` fields of an action dictionary, as the byte strings
`base64.b64decode` receives (python encodes the str to bytes first). -/
def toEncDict (action : Dict) : EncDict :=
  EncDict.mk
    ((((alookup action kEnc).getD emptyS).data.map utf8Bytes).flatten)
    ((((alookup action kIv).getD emptyS).data.map utf8Bytes).flatten)

/-- `GUIMainWindow._vault_action` (src/gui_main_window.py lines 730-804),
restricted to its effect on the decrypted entry list
`self._vault["entries_decrypted"]`.  `has_sync_key` says whether the caller
passed a `sync_key` (the cipher itself is the `Prims` bundle `p`); `fresh`
is the `secrets.token_urlsafe(8)` value used if the action carries no id.
Every exception path of the source (`return False`) leaves the list
unchanged, so the model returns the unchanged list there. -/
def vault_action (p : Prims) (has_sync_key : Bool) (fresh : String)
    (vault : List Dict) (action : Dict) : List Dict :=
  match alookup action kAct with
  | none => vault
  | some act =>
    if act = emptyS then vault
    else if act = kNew ∨ act = kAdd ∨ act = kSync then
      let entry0 : Option Dict :=
        if hasKey action kEnc ∧ hasKey action kIv then
          if has_sync_key then decrypt_entry p (toEncDict action) else none
        else some (aerase kAct action)
      match entry0 with
      | none => vault
      | some e0 =>
        let e := if hasKey e0 kId then e0 else aset kId fresh e0
        upsert_entry vault e
    else if act = kDelete then
      match alookup action kId with
      | none => vault
      | some uid =>
        if uid = emptyS then vault
        else delete_entry vault uid
    else vault

/-- The entry-decryption loop of `GUIMainWindow._open_vault`
(src/gui_main_window.py lines 497-515): entries with a missing/empty `enc`
or `iv` are skipped (`continue`); an entry that fails to decrypt raises
`Exception("Unable to decrypt entry")`, which the outer handler turns into
an aborted open (`none`); otherwise the decrypted entries are collected in
order. -/
def open_vault_entries (p : Prims) : List EncDict → Option (List Dict)
  | [] => some []
  | e :: es =>
    if e.enc = [] ∨ e.iv = [] then open_vault_entries p es
    else
      match decrypt_entry p e with
      | none => none
      | some d =>
        match open_vault_entries p es with
        | none => none
        | some ds => some (d :: ds)

/-- One action produced by `_sync_to`: either `{"act": "delete", "id": ...}`
or an encrypted entry with its `"act"` set to `"add"`/`"sync"`. -/
inductive SyncAction where
  | del (id : String)
  | upsert (act : String) (payload : EncDict)
deriving DecidableEq

/-- Whether a sync action is a delete action. -/
def SyncAction.isDel : SyncAction → Bool
  | SyncAction.del _ => true
  | SyncAction.upsert _ _ => false

/-- `entry["id"]` collected over a list of entries; `none` is the
`KeyError` raised when an entry has no `"id"` key. -/
def allIds : List Dict → Option (List String)
  | [] => some []
  | d :: ds =>
    match alookup d kId with
    | none => none
    | some i =>
      match allIds ds with
      | none => none
      | some rest => some (i :: rest)

/-- The add/sync loop of `_sync_to` (src/gui_main_window.py lines
1020-1033) over the reversed vault id list: skip ids whose decrypted entry
equals the device's decrypted entry, otherwise encrypt the vault entry
(fresh IV `ivs ix` per iteration) and tag it `"add"` when the device does
not know the id, `"sync"` otherwise. -/
def sync_to_rest (p : Prims) (ivs : Nat → Bytes) (vault_entries device_entries : List Dict)
    (device_entry_ids : List String) : List String → Nat → Option (List SyncAction)
  | [], _ => some []
  | eid :: rest, ix =>
    match id_to_entry vault_entries eid, id_to_entry device_entries eid with
    | Except.ok (some (_, entry_decrypted)), Except.ok dres =>
      let skip : Bool :=
        match dres with
        | some (_, device_entry_decrypted) => decide (device_entry_decrypted = entry_decrypted)
        | none => false
      if skip then sync_to_rest p ivs vault_entries device_entries device_entry_ids rest (ix + 1)
      else
        let payload := (encrypt_entry p (ivs ix) entry_decrypted).getD (EncDict.mk [] [])
        let a := if eid ∈ device_entry_ids then kSync else kAdd
        match sync_to_rest p ivs vault_entries device_entries device_entry_ids rest (ix + 1) with
        | some tail => some (SyncAction.upsert a payload :: tail)
        | none => none
    | _, _ => none

/-- The action list built by `GUIMainWindow._sync_to` (src/gui_main_window.py
lines 1010-1033), starting from the already-decrypted device snapshot
(decryption failures of the snapshot abort before this point): first a
`delete` for every device id absent from the vault, then the add/sync
actions over the reversed vault id list.  `none` models every aborting
exception path; the function is not reached at all when the vault has no
decrypted entries (line 938). -/
def sync_to_actions (p : Prims) (ivs : Nat → Bytes)
    (vault_entries device_entries : List Dict) : Option (List SyncAction) :=
  if vault_entries = [] then none
  else
    match allIds device_entries, allIds vault_entries with
    | some device_entry_ids, some entry_ids =>
      let deletes :=
        (device_entry_ids.filter fun i => ¬ i ∈ entry_ids).map SyncAction.del
      match sync_to_rest p ivs vault_entries device_entries device_entry_ids
          entry_ids.reverse 0 with
      | some rest => some (deletes ++ rest)
      | none => none
    | _, _ => none

end GuiMainWindow

/-- A value stored at a top-level key of the vault dictionary. -/
inductive VVal where
  | vs (s : String)
  | vb (b : Bytes)
  | vws (ws : List String)
  | vencs (es : List EncDict)
  | vdecs (ds : List Dict)
deriving DecidableEq

/-- The in-memory vault: a python dict from top-level key to value. -/
abbrev VaultM := List (String × VVal)

/-- Further vault keys. -/
def kMnemonic : String := "mnemonic"

def kEntropy : String := "entropy"

def kPath : String := "path"

def kEntriesDecrypted : String := "entries_decrypted"

def kMasterKey : String := "master_key"

def kEntries : String := "entries"

def kVersion : String := "version"

namespace GuiMainWindow

/-- The keys deleted from the persisted copy by `_vault_save`
(src/gui_main_window.py line 706). -/
def SECRET_KEYS : List String := [kMnemonic, kEntropy, kPath, kEntriesDecrypted, kMasterKey]

/-- `GUIMainWindow._vault_save` (src/gui_main_window.py lines 696-716),
restricted to the persisted structure it writes: copy the in-memory vault,
re-encrypt every decrypted entry under the in-memory master key (`ivs ix`
is the fresh random IV of each `encrypt_entry` call; the cipher keyed by
`vault_["master_key"]` is the `Prims` bundle, but the key must be present
- its absence is a `KeyError` caught as a failed save whenever the entry
loop runs), store them under `"entries"`, delete every secret key, and
stamp the running `version_str` (`_version.__version__`, a module not part
of the sources).  `none` is the aborted save. -/
def vault_save (p : Prims) (ivs : Nat → Bytes) (version_str : String)
    (v : VaultM) : Option VaultM :=
  let decs :=
    match alookup v kEntriesDecrypted with
    | some (VVal.vdecs ds) => ds
    | _ => []
  let ents? : Option (List EncDict) :=
    match decs with
    | [] => some []
    | _ =>
      match alookup v kMasterKey with
      | some (VVal.vb _) =>
        some (decs.enum.map fun pr => (encrypt_entry p (ivs pr.1) pr.2).getD (EncDict.mk [] []))
      | _ => none
  match ents? with
  | none => none
  | some ents =>
    let v1 := aset kEntries (VVal.vencs ents) v
    let v2 := SECRET_KEYS.foldl (fun acc k => aerase k acc) v1
    some (aset kVersion (VVal.vs version_str) v2)

end GuiMainWindow

/-- Concrete instantiation of the library primitives used by witnesses and
counterexamples: the identity block permutation, a constant 16-byte digest,
identity compression and a one-point json codec for the record `d0`. -/
def trivPrims (d0 : Dict) : Prims :=
  Prims.mk id id (fun _ => List.replicate 16 7) id some (fun _ => [48])
    (fun b => if b = [48] then some d0 else none)

/-- A large action (600-character base64-like payload) whose serialized
size alone exceeds the 500-byte frame budget. -/
def bigA (tag : String) : Dict :=
  [(kAct, kSync), (kId, tag), (kEnc, String.mk (List.replicate 600 (Char.ofNat 97)))]

/-- Concrete record with an `"id"` key. -/
def cD0 : Dict := [(kId, "x")]

/-- Concrete primitives keyed to `cD0`. -/
def cP0 : Prims := trivPrims cD0

/-- Concrete 16-byte IV. -/
def cIv0 : Bytes := List.replicate 16 0

/-- A concretely decryptable stored entry: `encrypt_entry` of `cD0`. -/
def cGoodE : EncDict := (encrypt_entry cP0 cIv0 cD0).getD (EncDict.mk [] [])

/-- A tampered stored entry: same IV, ciphertext replaced by garbage, so
decryption fails (checksum/unpad error inside `decrypt_entry`). -/
def cBadE : EncDict := EncDict.mk (b64encode (List.replicate 16 1)) (b64encode cIv0)

/-- Concrete record with no `"id"` key. -/
def cDNoId : Dict := [(kSite, "a")]

/-- Concrete primitives keyed to `cDNoId`. -/
def cPN : Prims := trivPrims cDNoId

/-- The concrete action `sync(id=x, site=a)`. -/
def cAct0 : Dict := [(kAct, kSync), (kId, "x"), (kSite, "a")]

/-- Concrete vault whose single entry has a non-fixed field `foo`. -/
def cVFoo : List Dict := [[(kId, "x"), ("foo", "1")]]

/-- Concrete sync action carrying a new value for the non-fixed field
`foo`. -/
def cActFoo : Dict := [(kAct, kSync), (kId, "x"), ("foo", "2")]

/-- Concrete vault entry for the sync-to witness. -/
def cDA : Dict := [(kId, "a"), (kSite, "s")]

/-- Concrete device-snapshot entry absent from the vault. -/
def cDB : Dict := [(kId, "b")]

/-- Concrete in-memory vault holding every secret field. -/
def cV9 : VaultM :=
  [(kVersion, VVal.vs sOne), (kMnemonic, VVal.vws ["w"]), (kEntropy, VVal.vb [1]),
    (kMasterKey, VVal.vb [2]), (kEntriesDecrypted, VVal.vdecs [cD0]),
    (kEntries, VVal.vencs [])]

/-- Feeding orders for a scan session: `FeedOf seen todo feed` says that
`feed` delivers the frames of `todo` in order, interleaved at any point
with repeats of frames already seen (`seen` accumulates delivered frames,
most recent first) - the camera-burst duplicates of the spec. -/
inductive FeedOf : List QRFrame → List QRFrame → List QRFrame → Prop where
  | done (seen : List QRFrame) : FeedOf seen [] []
  | deliver {seen todo feed : List QRFrame} (f : QRFrame) :
      FeedOf (f :: seen) todo feed → FeedOf seen (f :: todo) (f :: feed)
  | again {seen todo feed : List QRFrame} (g : QRFrame) :
      g ∈ seen → FeedOf seen todo feed → FeedOf seen todo (g :: feed)

/-- Concrete fresh-id values standing for `secrets.token_urlsafe(8)`. -/
def cF1 : String := "f1"

/-- A second, distinct fresh-id value. -/
def cF2 : String := "f2"

/-- The concrete action list of the sync-to witness: one delete (device id
`b` unknown to the vault) followed by one add. -/
def cActs5 : List GuiMainWindow.SyncAction :=
  (GuiMainWindow.sync_to_actions cP0 (fun _ => cIv0) [cDA] [cDB]).getD []

/-- The persisted structure of the concrete vault `cV9`. -/
def cV9Saved : VaultM := (GuiMainWindow.vault_save cP0 (fun _ => cIv0) sTwo cV9).getD []

/-- Invariant of the chunking loop state of `_pre_show_or_exec`: the write
index is at or one before the end of `data_dicts`, every data_dict carries
its own position as `"i"`, and every data_dict other than the one at the
write index has already reached the byte budget. -/
def ChunkInv (st : Nat × List FrameD) : Prop :=
  (st.1 = st.2.length ∨ st.1 + 1 = st.2.length)
  ∧ (∀ k (h : k < st.2.length), (st.2[k]).i = k)
  ∧ (∀ k (h : k < st.2.length), ¬ k = st.1 →
      QR_LIMIT_BYTES ≤ (frameInner k ((st.2[k]).acts)).length)

/-! ## Association list lemmas -/

theorem alookup_aset_self {α : Type} (l : List (String × α)) (k : String) (v : α) :
    alookup (aset k v l) k = some v := by
  induction l with
  | nil => simp [aset, alookup]
  | cons hd t ih =>
    obtain ⟨k2, v2⟩ := hd
    by_cases hk : k2 = k
    · simp [aset, hk, alookup]
    · simp [aset, hk, alookup, ih]

theorem alookup_aset_ne {α : Type} (l : List (String × α)) (k k2 : String) (v : α)
    (h : k2 ≠ k) : alookup (aset k2 v l) k = alookup l k := by
  induction l with
  | nil => simp [aset, alookup, h]
  | cons hd t ih =>
    obtain ⟨k3, v3⟩ := hd
    by_cases hk : k3 = k2
    · simp [aset, hk, alookup, h]
    · simp only [aset, hk, if_false, alookup]
      by_cases hk3 : k3 = k
      · simp [hk3]
      · simp [hk3, ih]

theorem aset_alookup_self {α : Type} (l : List (String × α)) (k : String) (v : α)
    (h : alookup l k = some v) : aset k v l = l := by
  induction l with
  | nil => simp [alookup] at h
  | cons hd t ih =>
    obtain ⟨k2, v2⟩ := hd
    by_cases hk : k2 = k
    · subst hk
      have hv : v2 = v := by simpa [alookup] using h
      simp [aset, hv]
    · simp only [alookup, if_neg hk] at h
      simp [aset, hk, ih h]

theorem alookup_aerase_ne {α : Type} (l : List (String × α)) (k k2 : String)
    (h : k2 ≠ k) : alookup (aerase k2 l) k = alookup l k := by
  induction l with
  | nil => simp [aerase]
  | cons hd t ih =>
    obtain ⟨k3, v3⟩ := hd
    by_cases hk : k3 = k2
    · subst hk
      simp [aerase, alookup, h]
    · simp only [aerase, if_neg hk, alookup]
      by_cases hk3 : k3 = k
      · simp [hk3]
      · simp [hk3, ih]

/-! ## Merge lemmas (the update branch of `_vault_action`) -/

namespace GuiMainWindow

theorem mergeOver_nil (st e : Dict) : mergeOver [] st e = st := rfl

theorem mergeOver_cons (k : String) (ks : List String) (st e : Dict) :
    mergeOver (k :: ks) st e =
      mergeOver ks
        (match alookup e k with
          | some v => aset k v st
          | none => st) e := rfl

theorem alookup_mergeOver_not_mem (ks : List String) (st e : Dict) (k : String)
    (h : ¬ k ∈ ks) : alookup (mergeOver ks st e) k = alookup st k := by
  induction ks generalizing st with
  | nil => rfl
  | cons k2 ks ih =>
    have hk2 : k2 ≠ k := fun hc => h (hc ▸ List.mem_cons_self k2 ks)
    have hks : ¬ k ∈ ks := fun hc => h (List.mem_cons_of_mem k2 hc)
    rw [mergeOver_cons]
    cases he : alookup e k2 with
    | none => simp only [he]; exact ih _ hks
    | some v =>
      simp only [he]
      rw [ih _ hks, alookup_aset_ne _ _ _ _ hk2]

theorem alookup_mergeOver_mem (ks : List String) :
    ∀ (st e : Dict) (k v : String), k ∈ ks → ks.Nodup → alookup e k = some v →
      alookup (mergeOver ks st e) k = some v := by
  induction ks with
  | nil =>
    intro st e k v hmem
    cases hmem
  | cons k2 ks ih =>
    intro st e k v hmem hnd he
    simp only [mergeOver_cons]
    rcases List.mem_cons.1 hmem with hk | hk
    · subst hk
      have hnot : ¬ k ∈ ks := (List.nodup_cons.1 hnd).1
      simp only [he]
      rw [alookup_mergeOver_not_mem _ _ _ _ hnot, alookup_aset_self]
    · cases he2 : alookup e k2 with
      | none => simpa only [he2] using ih _ _ _ _ hk (List.nodup_cons.1 hnd).2 he
      | some v2 => simpa only [he2] using ih _ _ _ _ hk (List.nodup_cons.1 hnd).2 he

theorem alookup_mergeOver_none (ks : List String) (st e : Dict) (k : String)
    (he : alookup e k = none) :
    alookup (mergeOver ks st e) k = alookup st k := by
  induction ks generalizing st with
  | nil => rfl
  | cons k2 ks ih =>
    rw [mergeOver_cons]
    by_cases hk : k2 = k
    · subst hk
      rw [he]
      exact ih _
    · cases he2 : alookup e k2 with
      | none => exact ih _
      | some v2 => rw [ih _, alookup_aset_ne _ _ _ _ hk]

theorem mergeOver_idem (ks : List String) (hnd : ks.Nodup) (st e : Dict) :
    mergeOver ks (mergeOver ks st e) e = mergeOver ks st e := by
  induction ks generalizing st with
  | nil => rfl
  | cons k ks ih =>
    have hnot : ¬ k ∈ ks := (List.nodup_cons.1 hnd).1
    have hnd2 : ks.Nodup := (List.nodup_cons.1 hnd).2
    cases he : alookup e k with
    | none =>
      simp only [mergeOver_cons, he]
      exact ih hnd2 _
    | some v =>
      simp only [mergeOver_cons, he]
      have hx : alookup (mergeOver ks (aset k v st) e) k = some v := by
        rw [alookup_mergeOver_not_mem _ _ _ _ hnot, alookup_aset_self]
      rw [aset_alookup_self _ _ _ hx]
      exact ih hnd2 _

theorem mergeOver_self (ks : List String) (e : Dict) : mergeOver ks e e = e := by
  induction ks with
  | nil => rfl
  | cons k ks ih =>
    rw [mergeOver_cons]
    cases he : alookup e k with
    | none => simpa only [he] using ih
    | some v =>
      simp only [he]
      rw [aset_alookup_self _ _ _ he]
      exact ih

/-! ## `_id_to_entry` lemmas -/

theorem id_to_entry_cons_self (e : Dict) (vault : List Dict) (uid : String)
    (h : alookup e kId = some uid) :
    id_to_entry (e :: vault) uid = Except.ok (some (0, e)) := by
  simp [id_to_entry, h]

theorem id_to_entry_found_id : ∀ (vault : List Dict) (uid : String) (i : Nat) (st : Dict),
    id_to_entry vault uid = Except.ok (some (i, st)) → alookup st kId = some uid := by
  intro vault
  induction vault with
  | nil =>
    intro uid i st h
    simp [id_to_entry] at h
  | cons d ds ih =>
    intro uid i st h
    simp only [id_to_entry] at h
    cases hd : alookup d kId with
    | none => simp [hd] at h
    | some v =>
      simp only [hd] at h
      by_cases hv : v = uid
      · simp only [hv, if_true, Except.ok.injEq, Option.some.injEq, Prod.mk.injEq] at h
        rw [← h.2, hd, hv]
      · simp only [if_neg hv] at h
        cases hrec : id_to_entry ds uid with
        | error u => simp [hrec] at h
        | ok o =>
          cases o with
          | none => simp [hrec] at h
          | some pr =>
            obtain ⟨i2, e2⟩ := pr
            simp only [hrec, Except.ok.injEq, Option.some.injEq, Prod.mk.injEq] at h
            rw [← h.2]
            exact ih uid i2 e2 hrec

theorem id_to_entry_set : ∀ (vault : List Dict) (uid : String) (i : Nat) (st e2 : Dict),
    id_to_entry vault uid = Except.ok (some (i, st)) → alookup e2 kId = some uid →
    id_to_entry (vault.set i e2) uid = Except.ok (some (i, e2)) := by
  intro vault
  induction vault with
  | nil =>
    intro uid i st e2 h
    simp [id_to_entry] at h
  | cons d ds ih =>
    intro uid i st e2 h he2
    simp only [id_to_entry] at h
    cases hd : alookup d kId with
    | none => simp [hd] at h
    | some v =>
      simp only [hd] at h
      by_cases hv : v = uid
      · simp only [hv, if_true, Except.ok.injEq, Option.some.injEq, Prod.mk.injEq] at h
        rw [← h.1]
        simp only [List.set]
        exact id_to_entry_cons_self _ _ _ he2
      · simp only [if_neg hv] at h
        cases hrec : id_to_entry ds uid with
        | error u => simp [hrec] at h
        | ok o =>
          cases o with
          | none => simp [hrec] at h
          | some pr =>
            obtain ⟨i2, st2⟩ := pr
            simp only [hrec, Except.ok.injEq, Option.some.injEq, Prod.mk.injEq] at h
            rw [← h.1]
            simp only [List.set]
            simp only [id_to_entry, hd, if_neg hv, ih uid i2 st2 e2 hrec he2]

/-! ## Idempotence of the find-update-or-insert block -/

theorem fixed_keys_nodup : FIXED_FIELD_KEYS.Nodup := by decide

theorem kId_not_fixed : ¬ kId ∈ FIXED_FIELD_KEYS := by decide

theorem alookup_mergeFixed_id (stored e : Dict) :
    alookup (mergeFixed stored e) kId = alookup stored kId :=
  alookup_mergeOver_not_mem _ _ _ _ kId_not_fixed

theorem upsert_entry_idem (vault : List Dict) (e : Dict) (uid : String)
    (he : alookup e kId = some uid) :
    upsert_entry (upsert_entry vault e) e = upsert_entry vault e := by
  cases hfind : id_to_entry vault uid with
  | error u => simp only [upsert_entry, he, hfind]
  | ok o =>
    cases o with
    | none =>
      simp only [upsert_entry, he, hfind]
      rw [id_to_entry_cons_self _ _ _ he]
      simp only [List.set]
      have hme : mergeFixed e e = e := mergeOver_self _ _
      rw [hme]
    | some pr =>
      obtain ⟨idx, stored⟩ := pr
      simp only [upsert_entry, he, hfind]
      have hmid : alookup (mergeFixed stored e) kId = some uid := by
        rw [alookup_mergeFixed_id]
        exact id_to_entry_found_id _ _ _ _ hfind
      simp only [id_to_entry_set _ _ _ _ _ hfind hmid, List.set_set]
      have hmm : mergeFixed (mergeFixed stored e) e = mergeFixed stored e :=
        mergeOver_idem _ fixed_keys_nodup _ _
      rw [hmm]

end GuiMainWindow

theorem decrypt_entry_some_id (p : Prims) (x : EncDict) (d : Dict)
    (h : decrypt_entry p x = some d) : hasKey d kId = true := by
  simp only [decrypt_entry] at h
  split at h
  · split at h
    · split at h
      · split at h
        · split at h
          · split at h
            · split at h
              · next hkey =>
                injection h with h2
                subst h2
                exact hkey
              · exact Option.noConfusion h
            · exact Option.noConfusion h
          · exact Option.noConfusion h
        · exact Option.noConfusion h
      · exact Option.noConfusion h
    · exact Option.noConfusion h
  · exact Option.noConfusion h

theorem hasKey_aerase_ne (d : Dict) (k k2 : String) (h : k2 ≠ k) :
    hasKey (aerase k2 d) k = hasKey d k := by
  unfold hasKey
  rw [alookup_aerase_ne _ _ _ h]

/-- Claim C6: applying the same `sync` action twice in succession to any
vault state yields the same final decrypted entry list as applying it once
(the action carries an `"id"` when it is a plaintext action, as every sync
action built by the program does; an encrypted action's decrypted form
always carries one); in particular applying `sync(id=x, site="a")` once or
twice to an empty vault yields exactly one entry with id `x` and site `a`. -/
theorem c6_sync_action_idempotent
    (p : Prims) (hk : Bool) (fresh fresh2 : String) (vault : List Dict) (action : Dict)
    (hact : alookup action kAct = some kSync)
    (hid : hasKey action kEnc = false ∨ hasKey action kIv = false → hasKey action kId = true) :
    GuiMainWindow.vault_action p hk fresh2 (GuiMainWindow.vault_action p hk fresh vault action)
        action = GuiMainWindow.vault_action p hk fresh vault action
    ∧ GuiMainWindow.vault_action cP0 false cF1 [] cAct0 = [[(kId, "x"), (kSite, "a")]]
    ∧ GuiMainWindow.vault_action cP0 false cF2
        (GuiMainWindow.vault_action cP0 false cF1 [] cAct0) cAct0
      = GuiMainWindow.vault_action cP0 false cF1 [] cAct0 := by
  refine ⟨?_, by decide, by decide⟩
  have h1 : (kSync = emptyS) = False := eq_false (by decide)
  by_cases hpath : hasKey action kEnc = true ∧ hasKey action kIv = true
  · have h4 : (hasKey action kEnc = true ∧ hasKey action kIv = true) = True := eq_true hpath
    cases hk with
    | false =>
      simp only [GuiMainWindow.vault_action, hact, h1, if_false, eq_self_iff_true, or_true,
        if_true, h4, Bool.false_eq_true]
    | true =>
      cases hdec : decrypt_entry p (GuiMainWindow.toEncDict action) with
      | none =>
        simp only [GuiMainWindow.vault_action, hact, h1, if_false, eq_self_iff_true, or_true,
          if_true, h4, hdec]
      | some e0 =>
        have hkey : hasKey e0 kId = true := decrypt_entry_some_id _ _ _ hdec
        obtain ⟨uid, huid⟩ := Option.isSome_iff_exists.1 hkey
        simp only [GuiMainWindow.vault_action, hact, h1, if_false, eq_self_iff_true, or_true,
          if_true, h4, hdec, hkey]
        exact GuiMainWindow.upsert_entry_idem _ _ _ huid
  · have h4 : (hasKey action kEnc = true ∧ hasKey action kIv = true) = False := eq_false hpath
    have hid2 : hasKey action kId = true := by
      apply hid
      cases hx : hasKey action kEnc <;> cases hy : hasKey action kIv <;> simp_all
    have hkey : hasKey (aerase kAct action) kId = true := by
      rw [hasKey_aerase_ne _ _ _ (by decide)]
      exact hid2
    obtain ⟨uid, huid⟩ := Option.isSome_iff_exists.1 hkey
    simp only [GuiMainWindow.vault_action, hact, h1, if_false, eq_self_iff_true, or_true,
      if_true, h4, hkey]
    exact GuiMainWindow.upsert_entry_idem _ _ _ huid

/-- Witness for C6 at the concrete empty-vault instance. -/
theorem c6_sync_action_idempotent_witness :
    GuiMainWindow.vault_action cP0 false cF2 (GuiMainWindow.vault_action cP0 false cF1 [] cAct0)
        cAct0 = GuiMainWindow.vault_action cP0 false cF1 [] cAct0
    ∧ GuiMainWindow.vault_action cP0 false cF1 [] cAct0 = [[(kId, "x"), (kSite, "a")]]
    ∧ GuiMainWindow.vault_action cP0 false cF2
        (GuiMainWindow.vault_action cP0 false cF1 [] cAct0) cAct0
      = GuiMainWindow.vault_action cP0 false cF1 [] cAct0 :=
  c6_sync_action_idempotent cP0 false cF1 cF2 [] cAct0 (by decide) (fun _ => by decide)

/-- Claim C7 (amended): when an add/sync plaintext action targets an
identifier that already has a decrypted entry, only the fixed field keys
`site`, `user`, `pass`, `notes` present in the action are written onto the
existing entry; every field of the existing entry whose key is outside that
fixed set, or absent from the action, keeps its previous value - action
fields outside the fixed set are ignored by the update. -/
theorem c7_update_merges_fixed_keys_only
    (p : Prims) (hk : Bool) (fresh : String) (vault : List Dict) (action : Dict)
    (uid : String) (idx : Nat) (stored : Dict)
    (hact : alookup action kAct = some kAdd ∨ alookup action kAct = some kSync)
    (hpt : (hasKey action kEnc = true ∧ hasKey action kIv = true) = False)
    (hid : alookup (aerase kAct action) kId = some uid)
    (hfind : GuiMainWindow.id_to_entry vault uid = Except.ok (some (idx, stored))) :
    GuiMainWindow.vault_action p hk fresh vault action
      = vault.set idx (GuiMainWindow.mergeFixed stored (aerase kAct action))
    ∧ (∀ k v, k ∈ GuiMainWindow.FIXED_FIELD_KEYS → alookup (aerase kAct action) k = some v →
        alookup (GuiMainWindow.mergeFixed stored (aerase kAct action)) k = some v)
    ∧ (∀ k, ¬ k ∈ GuiMainWindow.FIXED_FIELD_KEYS →
        alookup (GuiMainWindow.mergeFixed stored (aerase kAct action)) k = alookup stored k)
    ∧ (∀ k, alookup (aerase kAct action) k = none →
        alookup (GuiMainWindow.mergeFixed stored (aerase kAct action)) k = alookup stored k) := by
  refine ⟨?_, ?_, ?_, ?_⟩
  · have hkey : hasKey (aerase kAct action) kId = true := by
      unfold hasKey
      rw [hid]
      rfl
    rcases hact with hact | hact
    all_goals
      simp only [GuiMainWindow.vault_action, hact, eq_false (by decide : ¬ (kAdd = emptyS)),
        eq_false (by decide : ¬ (kSync = emptyS)), if_false, eq_self_iff_true, or_true,
        true_or, if_true, hpt, hkey, GuiMainWindow.upsert_entry, hid, hfind]
  · intro k v hmem hk2
    exact GuiMainWindow.alookup_mergeOver_mem _ _ _ _ _ hmem GuiMainWindow.fixed_keys_nodup hk2
  · intro k hmem
    exact GuiMainWindow.alookup_mergeOver_not_mem _ _ _ _ hmem
  · intro k hnone
    exact GuiMainWindow.alookup_mergeOver_none _ _ _ _ hnone

/-- Witness for C7 at a concrete vault and action. -/
theorem c7_update_merges_fixed_keys_only_witness :
    GuiMainWindow.vault_action cP0 false cF1 cVFoo cAct0
      = cVFoo.set 0 (GuiMainWindow.mergeFixed [(kId, "x"), ("foo", sOne)] (aerase kAct cAct0))
    ∧ (∀ k v, k ∈ GuiMainWindow.FIXED_FIELD_KEYS → alookup (aerase kAct cAct0) k = some v →
        alookup (GuiMainWindow.mergeFixed [(kId, "x"), ("foo", sOne)] (aerase kAct cAct0)) k
          = some v)
    ∧ (∀ k, ¬ k ∈ GuiMainWindow.FIXED_FIELD_KEYS →
        alookup (GuiMainWindow.mergeFixed [(kId, "x"), ("foo", sOne)] (aerase kAct cAct0)) k
          = alookup [(kId, "x"), ("foo", sOne)] k)
    ∧ (∀ k, alookup (aerase kAct cAct0) k = none →
        alookup (GuiMainWindow.mergeFixed [(kId, "x"), ("foo", sOne)] (aerase kAct cAct0)) k
          = alookup [(kId, "x"), ("foo", sOne)] k) :=
  c7_update_merges_fixed_keys_only cP0 false cF1 cVFoo cAct0 "x" 0
    [(kId, "x"), ("foo", sOne)] (Or.inr (by decide)) (by decide) (by decide) (by decide)

/-- Counterexample for C7 as stated: the sync action `cActFoo` carries the
field `foo = "2"` for the existing entry `id = x`, but the update leaves
the entry's `foo` at `"1"` - a field key outside the fixed
site/user/pass/notes set present in the action is not merged. -/
theorem c7_counterexample :
    hasKey (aerase kAct cActFoo) "foo" = true
    ∧ alookup (aerase kAct cActFoo) "foo" = some sTwo
    ∧ GuiMainWindow.vault_action cP0 false cF1 cVFoo cActFoo = cVFoo
    ∧ alookup ((GuiMainWindow.vault_action cP0 false cF1 cVFoo cActFoo).headD []) "foo"
        = some sOne
    ∧ ¬ alookup ((GuiMainWindow.vault_action cP0 false cF1 cVFoo cActFoo).headD []) "foo"
        = some sTwo := by
  decide


/-! ## Delete-precedence of the `_sync_to` action list -/

theorem sync_to_rest_isDel_false (p : Prims) (ivs : Nat → Bytes)
    (ve de : List Dict) (ids : List String) :
    ∀ (l : List String) (ix : Nat) (res : List GuiMainWindow.SyncAction),
      GuiMainWindow.sync_to_rest p ivs ve de ids l ix = some res →
      ∀ a ∈ res, a.isDel = false := by
  intro l
  induction l with
  | nil =>
    intro ix res h a ha
    simp only [GuiMainWindow.sync_to_rest, Option.some.injEq] at h
    subst h
    cases ha
  | cons eid rest ih =>
    intro ix res h a ha
    simp only [GuiMainWindow.sync_to_rest] at h
    split at h
    · split at h
      · exact ih _ _ h a ha
      · split at h
        · next tail htail =>
          injection h with h2
          subst h2
          rcases List.mem_cons.1 ha with rfl | hmem
          · rfl
          · exact ih _ _ htail a hmem
        · exact Option.noConfusion h
    · exact Option.noConfusion h

theorem del_append_precedes (D R : List GuiMainWindow.SyncAction)
    (hD : ∀ a ∈ D, a.isDel = true) (hR : ∀ a ∈ R, a.isDel = false)
    (i j : Nat) (hi : i < (D ++ R).length) (hj : j < (D ++ R).length)
    (hdel : ((D ++ R).get ⟨j, hj⟩).isDel = true)
    (hup : ((D ++ R).get ⟨i, hi⟩).isDel = false) : j < i := by
  have hjD : j < D.length := by
    by_contra hc
    push_neg at hc
    have hjR : j - D.length < R.length := by
      have := List.length_append D R
      omega
    have heq : (D ++ R).get ⟨j, hj⟩ = R.get ⟨j - D.length, hjR⟩ := by
      simp only [List.get_eq_getElem]
      exact List.getElem_append_right hc
    rw [heq, hR _ (List.get_mem _ _ _)] at hdel
    exact Bool.noConfusion hdel
  have hiD : D.length ≤ i := by
    by_contra hc
    push_neg at hc
    have heq : (D ++ R).get ⟨i, hi⟩ = D.get ⟨i, hc⟩ := by
      simp only [List.get_eq_getElem]
      exact List.getElem_append_left hc
    rw [heq, hD _ (List.get_mem _ _ _)] at hup
    exact Bool.noConfusion hup
  omega

/-- Claim C5: for every vault state and (decrypted) device snapshot, every
`delete` action in the list built by `_sync_to` - one for each identifier
present in the device snapshot but absent from the vault - occurs in the
list before every `add` or `sync` action. -/
theorem c5_delete_precedes_upserts (p : Prims) (ivs : Nat → Bytes)
    (vault_entries device_entries : List Dict) (acts : List GuiMainWindow.SyncAction)
    (h : GuiMainWindow.sync_to_actions p ivs vault_entries device_entries = some acts)
    (i j : Nat) (hi : i < acts.length) (hj : j < acts.length)
    (hdel : (acts.get ⟨j, hj⟩).isDel = true)
    (hup : (acts.get ⟨i, hi⟩).isDel = false) :
    j < i := by
  simp only [GuiMainWindow.sync_to_actions] at h
  split at h
  · exact Option.noConfusion h
  · split at h
    · split at h
      · next rest hrest =>
        injection h with h2
        subst h2
        refine del_append_precedes _ _ ?_ ?_ i j hi hj hdel hup
        · intro a ha
          rcases List.mem_map.1 ha with ⟨x, _, rfl⟩
          rfl
        · exact sync_to_rest_isDel_false _ _ _ _ _ _ _ _ hrest
      · exact Option.noConfusion h
    · exact Option.noConfusion h

/-- Witness for C5 at a concrete vault and device snapshot. -/
theorem c5_delete_precedes_upserts_witness :
    GuiMainWindow.sync_to_actions cP0 (fun _ => cIv0) [cDA] [cDB] = some cActs5
    ∧ cActs5[0]?.map GuiMainWindow.SyncAction.isDel = some true
    ∧ cActs5[1]?.map GuiMainWindow.SyncAction.isDel = some false
    ∧ 0 < 1 :=
  ⟨by decide, by decide, by decide,
    c5_delete_precedes_upserts cP0 (fun _ => cIv0) [cDA] [cDB] cActs5 (by decide) 1 0
      (by decide) (by decide) (by decide) (by decide)⟩

/-! ## Base64 round trip -/

theorem b64val_b64chr : ∀ n, n < 64 → b64val (b64chr n) = some n := by decide

theorem b64chr_ne_61 : ∀ n, n < 64 → ¬ b64chr n = 61 := by decide

theorem b64decode_b64encode : ∀ (b : Bytes), isBytes b → b64decode (b64encode b) = some b
  | [], _ => rfl
  | [x], h => by
    have hx : x < 256 := h x (by simp)
    have h1 : b64val (b64chr (x / 4)) = some (x / 4) := b64val_b64chr _ (by omega)
    have h2 : b64val (b64chr (x % 4 * 16)) = some (x % 4 * 16) := b64val_b64chr _ (by omega)
    simp only [b64encode, b64decode, h1, h2, if_true, and_self, if_pos, Option.some.injEq]
    have : x / 4 * 4 + x % 4 * 16 / 16 = x := by omega
    rw [this]
  | [x, y], h => by
    have hx : x < 256 := h x (by simp)
    have hy : y < 256 := h y (by simp)
    have h1 : b64val (b64chr (x / 4)) = some (x / 4) := b64val_b64chr _ (by omega)
    have h2 : b64val (b64chr (x % 4 * 16 + y / 16)) = some (x % 4 * 16 + y / 16) :=
      b64val_b64chr _ (by omega)
    have h3 : b64val (b64chr (y % 16 * 4)) = some (y % 16 * 4) := b64val_b64chr _ (by omega)
    have hc : ¬ b64chr (y % 16 * 4) = 61 := b64chr_ne_61 _ (by omega)
    simp only [b64encode, b64decode, h1, h2, h3, if_neg hc, if_true, and_self, if_pos,
      Option.some.injEq]
    have e1 : x / 4 * 4 + (x % 4 * 16 + y / 16) / 16 = x := by omega
    have e2 : (x % 4 * 16 + y / 16) % 16 * 16 + y % 16 * 4 / 4 = y := by omega
    rw [e1, e2]
  | x :: y :: z :: rest, h => by
    have hx : x < 256 := h x (by simp)
    have hy : y < 256 := h y (by simp)
    have hz : z < 256 := h z (by simp)
    have h1 : b64val (b64chr (x / 4)) = some (x / 4) := b64val_b64chr _ (by omega)
    have h2 : b64val (b64chr (x % 4 * 16 + y / 16)) = some (x % 4 * 16 + y / 16) :=
      b64val_b64chr _ (by omega)
    have h3 : b64val (b64chr (y % 16 * 4 + z / 64)) = some (y % 16 * 4 + z / 64) :=
      b64val_b64chr _ (by omega)
    have h4 : b64val (b64chr (z % 64)) = some (z % 64) := b64val_b64chr _ (by omega)
    have hc : ¬ b64chr (y % 16 * 4 + z / 64) = 61 := b64chr_ne_61 _ (by omega)
    have hd : ¬ b64chr (z % 64) = 61 := b64chr_ne_61 _ (by omega)
    have hrest : isBytes rest := by
      intro a ha
      exact h a (by simp [ha])
    have ih := b64decode_b64encode rest hrest
    simp only [b64encode, b64decode, h1, h2, h3, h4, if_neg hc, if_neg hd, ih,
      Option.some.injEq]
    have e1 : x / 4 * 4 + (x % 4 * 16 + y / 16) / 16 = x := by omega
    have e2 : (x % 4 * 16 + y / 16) % 16 * 16 + (y % 16 * 4 + z / 64) / 4 = y := by omega
    have e3 : (y % 16 * 4 + z / 64) % 4 * 64 + z % 64 = z := by omega
    rw [e1, e2, e3]

/-! ## PKCS#7 padding round trip -/

theorem getLast?_replicate_pos (a n : Nat) (h : 1 ≤ n) :
    (List.replicate n a).getLast? = some a := by
  cases n with
  | zero => omega
  | succ m =>
    rw [List.replicate_succ']
    exact List.getLast?_concat _

theorem unpad16_pad16 (b : Bytes) : unpad16 (pad16 b) = some b := by
  have hmod : b.length % 16 < 16 := Nat.mod_lt _ (by omega)
  set n := 16 - b.length % 16 with hn
  have hn1 : 1 ≤ n := by omega
  have hn16 : n ≤ 16 := by omega
  have hlen : (pad16 b).length = b.length + n := by
    simp [pad16, List.length_append, List.length_replicate, hn]
  have hlenmod : (pad16 b).length % 16 = 0 := by
    rw [hlen]
    omega
  have hlast : (pad16 b).getLast? = some n := by
    show (b ++ List.replicate n n).getLast? = some n
    rw [List.getLast?_append_of_ne_nil]
    · exact getLast?_replicate_pos n n hn1
    · intro hc
      have := congrArg List.length hc
      simp [List.length_replicate] at this
      omega
  have hdrop : (pad16 b).drop ((pad16 b).length - n) = List.replicate n n := by
    show (b ++ List.replicate n n).drop _ = _
    have : (pad16 b).length - n = b.length := by omega
    rw [this]
    exact List.drop_left b _
  have htake : (pad16 b).take ((pad16 b).length - n) = b := by
    show (b ++ List.replicate n n).take _ = _
    have : (pad16 b).length - n = b.length := by omega
    rw [this]
    exact List.take_left b _
  simp only [unpad16, hlast]
  rw [if_neg (by omega)]
  rw [if_pos ⟨hn1, Nat.le_min.2 ⟨hn16, by omega⟩, hdrop⟩, htake]

/-! ## Block splitting -/

theorem toBlocksGo_congr : ∀ (f1 : Nat), ∀ (l : Bytes), ∀ (f2 : Nat),
    l.length ≤ f1 → l.length ≤ f2 → toBlocksGo f1 l = toBlocksGo f2 l := by
  intro f1
  induction f1 with
  | zero =>
    intro l f2 h1 _
    have : l = [] := List.eq_nil_of_length_eq_zero (by omega)
    subst this
    cases f2 <;> rfl
  | succ g1 ih =>
    intro l f2 h1 h2
    cases l with
    | nil => cases f2 <;> rfl
    | cons x xs =>
      cases f2 with
      | zero => simp at h2
      | succ g2 =>
        simp only [toBlocksGo]
        have hd : (List.drop 16 (x :: xs)).length ≤ g1 := by
          simp only [List.length_drop, List.length_cons]
          simp only [List.length_cons] at h1
          omega
        have hd2 : (List.drop 16 (x :: xs)).length ≤ g2 := by
          simp only [List.length_drop, List.length_cons]
          simp only [List.length_cons] at h2
          omega
        rw [ih _ g2 hd hd2]

theorem toBlocks_nil : toBlocks [] = [] := rfl

theorem toBlocks_ne_nil (b : Bytes) (h : b ≠ []) :
    toBlocks b = b.take 16 :: toBlocks (b.drop 16) := by
  cases b with
  | nil => exact absurd rfl h
  | cons x xs =>
    show toBlocksGo (x :: xs).length (x :: xs) = _
    simp only [List.length_cons, toBlocksGo]
    rw [toBlocksGo_congr xs.length (List.drop 16 (x :: xs)) (List.drop 16 (x :: xs)).length
      (by simp only [List.length_drop, List.length_cons]; omega) (le_refl _)]
    rfl

theorem flatten_toBlocks : ∀ (b : Bytes), (toBlocks b).flatten = b := by
  have key : ∀ (fuel : Nat) (b : Bytes), b.length ≤ fuel → (toBlocksGo fuel b).flatten = b := by
    intro fuel
    induction fuel with
    | zero =>
      intro b h
      have : b = [] := List.eq_nil_of_length_eq_zero (by omega)
      subst this
      rfl
    | succ g ih =>
      intro b h
      cases b with
      | nil => rfl
      | cons x xs =>
        simp only [toBlocksGo, List.flatten_cons]
        rw [ih _ (by simp only [List.length_drop, List.length_cons] at h ⊢; omega)]
        exact List.take_append_drop 16 (x :: xs)
  intro b
  exact key b.length b (le_refl _)

theorem toBlocks_mem_length (b : Bytes) (hb : b.length % 16 = 0) :
    ∀ bl ∈ toBlocks b, bl.length = 16 := by
  have key : ∀ (fuel : Nat) (b : Bytes), b.length ≤ fuel → b.length % 16 = 0 →
      ∀ bl ∈ toBlocksGo fuel b, bl.length = 16 := by
    intro fuel
    induction fuel with
    | zero =>
      intro b h _ bl hbl
      have : b = [] := List.eq_nil_of_length_eq_zero (by omega)
      subst this
      cases hbl
    | succ g ih =>
      intro b h hmod bl hbl
      cases b with
      | nil => cases hbl
      | cons x xs =>
        simp only [toBlocksGo] at hbl
        rcases List.mem_cons.1 hbl with rfl | hmem
        · simp only [List.length_cons] at hmod
          have h16 : 16 ≤ xs.length + 1 := by omega
          rw [List.length_take, List.length_cons, Nat.min_eq_left h16]
        · refine ih _ ?_ ?_ _ hmem
          · simp only [List.length_drop, List.length_cons] at h ⊢
            omega
          · simp only [List.length_drop, List.length_cons] at hmod ⊢
            omega
  intro bl hbl
  exact key b.length b (le_refl _) hb bl hbl

theorem toBlocks_flatten : ∀ (L : List Bytes), (∀ bl ∈ L, bl.length = 16) →
    toBlocks L.flatten = L := by
  intro L
  induction L with
  | nil => intro _; rfl
  | cons bl L ih =>
    intro h
    have hbl : bl.length = 16 := h bl (by simp)
    have hne : (bl :: L).flatten ≠ [] := by
      simp only [List.flatten_cons]
      intro hc
      have := congrArg List.length hc
      simp [List.length_append, hbl] at this
    rw [toBlocks_ne_nil _ hne]
    simp only [List.flatten_cons]
    have htake : (bl ++ L.flatten).take 16 = bl := by
      rw [← hbl]
      exact List.take_left bl _
    have hdrop : (bl ++ L.flatten).drop 16 = L.flatten := by
      rw [← hbl]
      exact List.drop_left bl _
    rw [htake, hdrop, ih fun x hx => h x (by simp [hx])]

/-! ## CBC chaining round trip -/

theorem xorBlock_length (a b : Bytes) : (xorBlock a b).length = min a.length b.length := by
  simp [xorBlock, List.length_zipWith]

theorem xorBlock_cancel : ∀ (p c : Bytes), p.length = c.length →
    xorBlock (xorBlock p c) c = p := by
  intro p
  induction p with
  | nil => intro c _; cases c <;> rfl
  | cons a p ih =>
    intro c h
    cases c with
    | nil => simp at h
    | cons b c =>
      simp only [xorBlock, List.zipWith_cons_cons] at *
      have hx : Nat.xor (Nat.xor a b) b = a := Nat.xor_cancel_right b a
      rw [hx]
      rw [ih c (by simpa using h)]

theorem isBytes_xorBlock (a b : Bytes) (ha : isBytes a) (hb : isBytes b) :
    isBytes (xorBlock a b) := by
  intro x hx
  rcases List.mem_iff_get.1 hx with ⟨i, hi⟩
  subst hi
  have hlt := i.isLt
  simp only [xorBlock, List.length_zipWith, lt_min_iff] at hlt
  have hia : (i : Nat) < a.length := hlt.1
  have hib : (i : Nat) < b.length := hlt.2
  simp only [xorBlock, List.get_eq_getElem, List.getElem_zipWith]
  have h1 : a[(i : Nat)] < 2 ^ 8 := ha _ (List.getElem_mem _)
  have h2 : b[(i : Nat)] < 2 ^ 8 := hb _ (List.getElem_mem _)
  exact Nat.xor_lt_two_pow h1 h2

theorem cbcDec_cbcEnc (encB decB : Bytes → Bytes)
    (hinv : ∀ bl, bl.length = 16 → isBytes bl → decB (encB bl) = bl)
    (hlen : ∀ bl, bl.length = 16 → isBytes bl → (encB bl).length = 16)
    (hbytes : ∀ bl, bl.length = 16 → isBytes bl → isBytes (encB bl)) :
    ∀ (blocks : List Bytes) (prev : Bytes), prev.length = 16 → isBytes prev →
      (∀ bl ∈ blocks, bl.length = 16 ∧ isBytes bl) →
      cbcDecBlocks decB prev (cbcEncBlocks encB prev blocks) = blocks := by
  intro blocks
  induction blocks with
  | nil => intro prev _ _ _; rfl
  | cons p ps ih =>
    intro prev hprev hprevB hbl
    obtain ⟨hp16, hpB⟩ := hbl p (by simp)
    have hxlen : (xorBlock p prev).length = 16 := by
      rw [xorBlock_length, hp16, hprev]
      exact Nat.min_self 16
    have hxB : isBytes (xorBlock p prev) := isBytes_xorBlock _ _ hpB hprevB
    simp only [cbcEncBlocks, cbcDecBlocks]
    rw [hinv _ hxlen hxB, xorBlock_cancel p prev (by omega)]
    rw [ih (encB (xorBlock p prev)) (hlen _ hxlen hxB) (hbytes _ hxlen hxB)
      (fun bl hb => hbl bl (by simp [hb]))]

theorem cbcEnc_blocks_props (encB : Bytes → Bytes)
    (hlen : ∀ bl, bl.length = 16 → isBytes bl → (encB bl).length = 16)
    (hbytes : ∀ bl, bl.length = 16 → isBytes bl → isBytes (encB bl)) :
    ∀ (blocks : List Bytes) (prev : Bytes), prev.length = 16 → isBytes prev →
      (∀ bl ∈ blocks, bl.length = 16 ∧ isBytes bl) →
      ∀ c ∈ cbcEncBlocks encB prev blocks, c.length = 16 ∧ isBytes c := by
  intro blocks
  induction blocks with
  | nil => intro prev _ _ _ c hc; cases hc
  | cons p ps ih =>
    intro prev hprev hprevB hbl c hc
    obtain ⟨hp16, hpB⟩ := hbl p (by simp)
    have hxlen : (xorBlock p prev).length = 16 := by
      rw [xorBlock_length, hp16, hprev]
      exact Nat.min_self 16
    have hxB : isBytes (xorBlock p prev) := isBytes_xorBlock _ _ hpB hprevB
    simp only [cbcEncBlocks] at hc
    rcases List.mem_cons.1 hc with rfl | hmem
    · exact ⟨hlen _ hxlen hxB, hbytes _ hxlen hxB⟩
    · exact ih (encB (xorBlock p prev)) (hlen _ hxlen hxB) (hbytes _ hxlen hxB)
        (fun bl hb => hbl bl (by simp [hb])) c hmem

/-! ## Record cipher round trip -/

theorem pad16_length_mod (b : Bytes) : (pad16 b).length % 16 = 0 := by
  have h : b.length % 16 < 16 := Nat.mod_lt _ (by omega)
  simp only [pad16, List.length_append, List.length_replicate]
  omega

theorem pad16_isBytes (b : Bytes) (h : isBytes b) : isBytes (pad16 b) := by
  intro x hx
  rcases List.mem_append.1 hx with hx | hx
  · exact h x hx
  · have := List.eq_of_mem_replicate hx
    subst this
    have : b.length % 16 < 16 := Nat.mod_lt _ (by omega)
    omega

theorem toBlocks_mem_isBytes (b : Bytes) (h : isBytes b) :
    ∀ bl ∈ toBlocks b, isBytes bl := by
  intro bl hbl x hx
  apply h
  rw [← flatten_toBlocks b]
  exact List.mem_flatten.2 ⟨bl, hbl, hx⟩

theorem flatten_mod16 : ∀ (L : List Bytes), (∀ c ∈ L, c.length = 16) →
    L.flatten.length % 16 = 0 := by
  intro L
  induction L with
  | nil => intro _; rfl
  | cons c L ih =>
    intro h
    simp only [List.flatten_cons, List.length_append]
    have h1 : c.length = 16 := h c (by simp)
    have h2 : L.flatten.length % 16 = 0 := ih fun x hx => h x (by simp [hx])
    omega

theorem flatten_isBytes (L : List Bytes) (h : ∀ c ∈ L, isBytes c) : isBytes L.flatten := by
  intro x hx
  rcases List.mem_flatten.1 hx with ⟨c, hc, hxc⟩
  exact h c hc x hxc

/-- Claim C1: for every record `d` carrying an `"id"` key and every valid
AES key (presented as the block-permutation pair of `AES.new` together
with the standard behaviour of the zlib, md5 and json library calls on the
values this record produces), decrypting the result of encrypting `d`
returns exactly `d`. -/
theorem c1_encrypt_decrypt_roundtrip
    (p : Prims) (iv_bytes : Bytes) (d : Dict)
    (hiv16 : iv_bytes.length = 16) (hivB : isBytes iv_bytes)
    (hinv : ∀ bl, bl.length = 16 → isBytes bl → p.decB (p.encB bl) = bl)
    (hlen : ∀ bl, bl.length = 16 → isBytes bl → (p.encB bl).length = 16)
    (hbytes : ∀ bl, bl.length = 16 → isBytes bl → isBytes (p.encB bl))
    (hzB : isBytes (p.zcompress (p.jdumpsInner d ++ p.md5 (p.jdumpsInner d))))
    (hz : p.zdecompress (p.zcompress (p.jdumpsInner d ++ p.md5 (p.jdumpsInner d)))
      = some (p.jdumpsInner d ++ p.md5 (p.jdumpsInner d)))
    (hmd5 : (p.md5 (p.jdumpsInner d)).length = 16)
    (hjson : p.jloadsBrace (p.jdumpsInner d) = some d)
    (hid : hasKey d kId = true) :
    ∃ e, encrypt_entry p iv_bytes d = some e ∧ decrypt_entry p e = some d := by
  set eb := p.jdumpsInner d with heb
  set ws := eb ++ p.md5 eb with hws
  set comp := p.zcompress ws with hcomp
  set padded := pad16 comp with hpadded
  set blocks := toBlocks padded with hblocks
  set cts := cbcEncBlocks p.encB iv_bytes blocks with hcts
  set ct := cts.flatten with hct
  have hpadmod : padded.length % 16 = 0 := pad16_length_mod comp
  have hpadB : isBytes padded := pad16_isBytes comp hzB
  have hbl16 : ∀ bl ∈ blocks, bl.length = 16 := toBlocks_mem_length padded hpadmod
  have hblB : ∀ bl ∈ blocks, isBytes bl := toBlocks_mem_isBytes padded hpadB
  have hblprops : ∀ bl ∈ blocks, bl.length = 16 ∧ isBytes bl :=
    fun bl hb => ⟨hbl16 bl hb, hblB bl hb⟩
  have hctprops : ∀ c ∈ cts, c.length = 16 ∧ isBytes c :=
    cbcEnc_blocks_props p.encB hlen hbytes blocks iv_bytes hiv16 hivB hblprops
  have hct16 : ∀ c ∈ cts, c.length = 16 := fun c hc => (hctprops c hc).1
  have hctB : isBytes ct := flatten_isBytes cts fun c hc => (hctprops c hc).2
  have hctmod : ct.length % 16 = 0 := flatten_mod16 cts hct16
  refine ⟨EncDict.mk (b64encode ct) (b64encode iv_bytes), rfl, ?_⟩
  simp only [decrypt_entry, b64decode_b64encode iv_bytes hivB, b64decode_b64encode ct hctB]
  rw [if_pos ⟨hiv16, hctmod⟩]
  rw [show toBlocks ct = cts from toBlocks_flatten cts hct16]
  rw [cbcDec_cbcEnc p.encB p.decB hinv hlen hbytes blocks iv_bytes hiv16 hivB hblprops]
  rw [show blocks.flatten = padded from flatten_toBlocks padded]
  have hsplit1 : ws.take (ws.length - 16) = eb := by
    rw [hws]
    simp only [List.length_append, hmd5]
    rw [show eb.length + 16 - 16 = eb.length by omega]
    exact List.take_left eb _
  have hsplit2 : ws.drop (ws.length - 16) = p.md5 eb := by
    rw [hws]
    simp only [List.length_append, hmd5]
    rw [show eb.length + 16 - 16 = eb.length by omega]
    exact List.drop_left eb _
  simp only [unpad16_pad16 comp, hz, hsplit1, hsplit2, eq_self_iff_true, if_true, hjson, hid]

/-- Witness for C1 with the identity block cipher and one-point json codec. -/
theorem c1_encrypt_decrypt_roundtrip_witness :
    ∃ e, encrypt_entry cP0 cIv0 cD0 = some e ∧ decrypt_entry cP0 e = some cD0 :=
  c1_encrypt_decrypt_roundtrip cP0 cIv0 cD0 (by decide) (by decide)
    (fun _ _ _ => rfl) (fun _ h _ => h) (fun _ _ h => h)
    (by decide) (by decide) (by decide) (by decide) (by decide)

/-- Claim C10: `decrypt_entry` is total over its error cases - every
outcome is either a record containing an `"id"` key or `None` (every
failure, from invalid base64 through checksum mismatch to a missing
`"id"`, is caught and becomes `None`) - and a record without an `"id"`
key can be sealed by `encrypt_entry` but can never be returned by
`decrypt_entry`. -/
theorem c10_decrypt_entry_total_and_id_guard
    (p : Prims) (iv_bytes : Bytes) (d : Dict)
    (hiv16 : iv_bytes.length = 16) (hivB : isBytes iv_bytes)
    (hinv : ∀ bl, bl.length = 16 → isBytes bl → p.decB (p.encB bl) = bl)
    (hlen : ∀ bl, bl.length = 16 → isBytes bl → (p.encB bl).length = 16)
    (hbytes : ∀ bl, bl.length = 16 → isBytes bl → isBytes (p.encB bl))
    (hzB : isBytes (p.zcompress (p.jdumpsInner d ++ p.md5 (p.jdumpsInner d))))
    (hz : p.zdecompress (p.zcompress (p.jdumpsInner d ++ p.md5 (p.jdumpsInner d)))
      = some (p.jdumpsInner d ++ p.md5 (p.jdumpsInner d)))
    (hmd5 : (p.md5 (p.jdumpsInner d)).length = 16)
    (hjson : p.jloadsBrace (p.jdumpsInner d) = some d)
    (hid : hasKey d kId = false) :
    (∀ (e : EncDict) (d2 : Dict), decrypt_entry p e = some d2 → hasKey d2 kId = true)
    ∧ ∃ e, encrypt_entry p iv_bytes d = some e ∧ decrypt_entry p e = none := by
  refine ⟨fun e d2 h => decrypt_entry_some_id p e d2 h, ?_⟩
  set eb := p.jdumpsInner d with heb
  set ws := eb ++ p.md5 eb with hws
  set comp := p.zcompress ws with hcomp
  set padded := pad16 comp with hpadded
  set blocks := toBlocks padded with hblocks
  set cts := cbcEncBlocks p.encB iv_bytes blocks with hcts
  set ct := cts.flatten with hct
  have hpadmod : padded.length % 16 = 0 := pad16_length_mod comp
  have hpadB : isBytes padded := pad16_isBytes comp hzB
  have hbl16 : ∀ bl ∈ blocks, bl.length = 16 := toBlocks_mem_length padded hpadmod
  have hblB : ∀ bl ∈ blocks, isBytes bl := toBlocks_mem_isBytes padded hpadB
  have hblprops : ∀ bl ∈ blocks, bl.length = 16 ∧ isBytes bl :=
    fun bl hb => ⟨hbl16 bl hb, hblB bl hb⟩
  have hctprops : ∀ c ∈ cts, c.length = 16 ∧ isBytes c :=
    cbcEnc_blocks_props p.encB hlen hbytes blocks iv_bytes hiv16 hivB hblprops
  have hct16 : ∀ c ∈ cts, c.length = 16 := fun c hc => (hctprops c hc).1
  have hctB : isBytes ct := flatten_isBytes cts fun c hc => (hctprops c hc).2
  have hctmod : ct.length % 16 = 0 := flatten_mod16 cts hct16
  refine ⟨EncDict.mk (b64encode ct) (b64encode iv_bytes), rfl, ?_⟩
  simp only [decrypt_entry, b64decode_b64encode iv_bytes hivB, b64decode_b64encode ct hctB]
  rw [if_pos ⟨hiv16, hctmod⟩]
  rw [show toBlocks ct = cts from toBlocks_flatten cts hct16]
  rw [cbcDec_cbcEnc p.encB p.decB hinv hlen hbytes blocks iv_bytes hiv16 hivB hblprops]
  rw [show blocks.flatten = padded from flatten_toBlocks padded]
  have hsplit1 : ws.take (ws.length - 16) = eb := by
    rw [hws]
    simp only [List.length_append, hmd5]
    rw [show eb.length + 16 - 16 = eb.length by omega]
    exact List.take_left eb _
  have hsplit2 : ws.drop (ws.length - 16) = p.md5 eb := by
    rw [hws]
    simp only [List.length_append, hmd5]
    rw [show eb.length + 16 - 16 = eb.length by omega]
    exact List.drop_left eb _
  simp only [unpad16_pad16 comp, hz, hsplit1, hsplit2, eq_self_iff_true, if_true, hjson, hid,
    Bool.false_eq_true, if_false]

/-- Witness for C10: the record `{"site": "a"}` (no id) seals but never
opens. -/
theorem c10_decrypt_entry_total_and_id_guard_witness :
    (∀ (e : EncDict) (d2 : Dict), decrypt_entry cPN e = some d2 → hasKey d2 kId = true)
    ∧ ∃ e, encrypt_entry cPN cIv0 cDNoId = some e ∧ decrypt_entry cPN e = none :=
  c10_decrypt_entry_total_and_id_guard cPN cIv0 cDNoId (by decide) (by decide)
    (fun _ _ _ => rfl) (fun _ h _ => h) (fun _ _ h => h)
    (by decide) (by decide) (by decide) (by decide) (by decide)

/-- Claim C8 (amended): during vault open, a failure while decrypting a
single stored entry (e.g. a checksum mismatch) aborts the whole vault
open: `decrypt_entry` returns `None`, `_open_vault` raises
`Exception("Unable to decrypt entry")`, and the outer handler reports the
error and closes the vault - no remaining entries are returned.  Only
entries with a missing/empty `enc` or `iv` are skipped without aborting. -/
theorem c8_single_entry_failure_aborts_open (p : Prims) :
    ∀ (entries : List EncDict) (e : EncDict), e ∈ entries →
      ¬ (e.enc = [] ∨ e.iv = []) → decrypt_entry p e = none →
      GuiMainWindow.open_vault_entries p entries = none := by
  intro entries
  induction entries with
  | nil =>
    intro e hmem
    cases hmem
  | cons d rest ih =>
    intro e hmem hskip hfail
    rcases List.mem_cons.1 hmem with rfl | hmem2
    · simp only [GuiMainWindow.open_vault_entries, if_neg hskip, hfail]
    · by_cases hd : d.enc = [] ∨ d.iv = []
      · simp only [GuiMainWindow.open_vault_entries, if_pos hd]
        exact ih e hmem2 hskip hfail
      · simp only [GuiMainWindow.open_vault_entries, if_neg hd]
        cases hdec : decrypt_entry p d with
        | none => rfl
        | some d2 => simp only [ih e hmem2 hskip hfail]

/-- Witness for C8 (amended) at the concrete two-entry vault. -/
theorem c8_single_entry_failure_aborts_open_witness :
    GuiMainWindow.open_vault_entries cP0 [cBadE, cGoodE] = none :=
  c8_single_entry_failure_aborts_open cP0 [cBadE, cGoodE] cBadE (by decide) (by decide)
    (by decide)

/-- Counterexample for C8 as stated: the stored list `[cBadE, cGoodE]`
holds one tampered entry and one entry that decrypts fine, yet the open of
the remaining entries does not proceed - the whole open aborts (`none`)
instead of yielding the recoverable entry. -/
theorem c8_counterexample :
    decrypt_entry cP0 cBadE = none
    ∧ decrypt_entry cP0 cGoodE = some cD0
    ∧ GuiMainWindow.open_vault_entries cP0 [cGoodE] = some [cD0]
    ∧ GuiMainWindow.open_vault_entries cP0 [cBadE, cGoodE] = none
    ∧ ¬ GuiMainWindow.open_vault_entries cP0 [cBadE, cGoodE] = some [cD0] := by
  decide

/-! ## Key-set lemmas for the persisted vault -/

theorem c2_scrypt_cost_parameters (entropy master_salt pw s1 : Bytes) :
    (EncryptDecrypt.entropy_to_master_key_call entropy master_salt).n
        = EncryptDecrypt.MASTER_KEY_COST
    ∧ EncryptDecrypt.MASTER_KEY_COST = 2 ^ 16
    ∧ (EncryptDecrypt.entropy_to_master_key_call entropy master_salt).r = 8
    ∧ (EncryptDecrypt.entropy_to_master_key_call entropy master_salt).p = 1
    ∧ (EncryptDecrypt.entropy_to_master_key_call entropy master_salt).key_len = 32
    ∧ (EncryptDecrypt.encrypt_mnemonic_call pw s1).n = 2 ^ 16
    ∧ (EncryptDecrypt.decrypt_mnemonic_call pw s1).n = 2 ^ 16
    ∧ GuiMainWindow.MASTER_KEY_COST = 2 ^ 20
    ∧ ¬ (EncryptDecrypt.entropy_to_master_key_call entropy master_salt).n
        = GuiMainWindow.MASTER_KEY_COST :=
  have hne : (2 ^ 16 : Nat) ≠ 2 ^ 20 := by decide
  ⟨rfl, rfl, rfl, rfl, rfl, rfl, rfl, rfl, fun hc => hne hc⟩

theorem alookup_eq_none_of_not_mem {α : Type} (l : List (String × α)) (k : String)
    (h : ¬ k ∈ l.map Prod.fst) : alookup l k = none := by
  induction l with
  | nil => rfl
  | cons hd t ih =>
    obtain ⟨k2, v2⟩ := hd
    have hk2 : ¬ k2 = k := fun hc => h (by simp [hc])
    simp only [alookup, if_neg hk2]
    exact ih fun hc => h (by simp [hc])

theorem mem_keys_of_alookup_isSome {α : Type} (l : List (String × α)) (k : String)
    (h : (alookup l k).isSome = true) : k ∈ l.map Prod.fst := by
  induction l with
  | nil => simp [alookup] at h
  | cons hd t ih =>
    obtain ⟨k2, v2⟩ := hd
    by_cases hk2 : k2 = k
    · simp [hk2]
    · simp only [alookup, if_neg hk2] at h
      simp [ih h]

theorem alookup_isSome_of_mem_keys {α : Type} (l : List (String × α)) (k : String)
    (h : k ∈ l.map Prod.fst) : (alookup l k).isSome = true := by
  induction l with
  | nil => simp at h
  | cons hd t ih =>
    obtain ⟨k2, v2⟩ := hd
    by_cases hk2 : k2 = k
    · simp [alookup, hk2]
    · simp only [alookup, if_neg hk2]
      refine ih ?_
      simp only [List.map_cons, List.mem_cons] at h
      rcases h with h | h
      · exact absurd h.symm hk2
      · exact h

theorem keys_aerase_sublist {α : Type} (k : String) (l : List (String × α)) :
    ((aerase k l).map Prod.fst).Sublist (l.map Prod.fst) := by
  induction l with
  | nil => simp [aerase]
  | cons hd t ih =>
    obtain ⟨k2, v2⟩ := hd
    by_cases hk2 : k2 = k
    · simp only [aerase, if_pos hk2, List.map_cons]
      exact (List.sublist_cons_self _ _).trans (List.Sublist.refl _) |>.trans
        (List.Sublist.refl _)
    · simp only [aerase, if_neg hk2, List.map_cons]
      exact List.Sublist.cons₂ _ ih

theorem alookup_aerase_self_of_nodup {α : Type} (l : List (String × α)) (k : String)
    (hnd : (l.map Prod.fst).Nodup) : alookup (aerase k l) k = none := by
  induction l with
  | nil => rfl
  | cons hd t ih =>
    obtain ⟨k2, v2⟩ := hd
    simp only [List.map_cons, List.nodup_cons] at hnd
    by_cases hk2 : k2 = k
    · simp only [aerase, if_pos hk2]
      apply alookup_eq_none_of_not_mem
      rw [← hk2]
      exact hnd.1
    · simp only [aerase, if_neg hk2, alookup, if_neg hk2]
      exact ih hnd.2

theorem keys_foldl_aerase_sublist (ks : List String) :
    ∀ (l : VaultM), ((ks.foldl (fun acc k2 => aerase k2 acc) l).map Prod.fst).Sublist
      (l.map Prod.fst) := by
  induction ks with
  | nil => intro l; exact List.Sublist.refl _
  | cons k ks ih =>
    intro l
    simp only [List.foldl_cons]
    exact (ih (aerase k l)).trans (keys_aerase_sublist k l)

theorem alookup_foldl_aerase (ks : List String) :
    ∀ (l : VaultM), (l.map Prod.fst).Nodup → ∀ k ∈ ks,
      alookup (ks.foldl (fun acc k2 => aerase k2 acc) l) k = none := by
  induction ks with
  | nil =>
    intro l _ k hk
    cases hk
  | cons k2 ks ih =>
    intro l hnd k hk
    simp only [List.foldl_cons]
    have hnd2 : ((aerase k2 l).map Prod.fst).Nodup := hnd.sublist (keys_aerase_sublist k2 l)
    rcases List.mem_cons.1 hk with rfl | hk
    · apply alookup_eq_none_of_not_mem
      intro hc
      have hc2 : k ∈ (aerase k l).map Prod.fst :=
        (keys_foldl_aerase_sublist ks (aerase k l)).subset hc
      have := alookup_isSome_of_mem_keys _ _ hc2
      rw [alookup_aerase_self_of_nodup l k hnd] at this
      cases this
    · exact ih (aerase k2 l) hnd2 k hk

theorem mem_keys_aset {α : Type} (l : List (String × α)) (k k2 : String) (v : α)
    (h : k2 ∈ (aset k v l).map Prod.fst) : k2 = k ∨ k2 ∈ l.map Prod.fst := by
  induction l with
  | nil =>
    simp only [aset, List.map_cons, List.map_nil, List.mem_singleton] at h
    exact Or.inl h
  | cons hd t ih =>
    obtain ⟨k3, v3⟩ := hd
    by_cases hk3 : k3 = k
    · simp only [aset, if_pos hk3, List.map_cons, List.mem_cons] at h
      rcases h with h | h
      · exact Or.inl h
      · exact Or.inr (by simp [h])
    · simp only [aset, if_neg hk3, List.map_cons, List.mem_cons] at h
      rcases h with h | h
      · exact Or.inr (by simp [h])
      · rcases ih h with h2 | h2
        · exact Or.inl h2
        · exact Or.inr (by simp [h2])

theorem nodup_keys_aset {α : Type} (l : List (String × α)) (k : String) (v : α)
    (hnd : (l.map Prod.fst).Nodup) : ((aset k v l).map Prod.fst).Nodup := by
  induction l with
  | nil => simp [aset]
  | cons hd t ih =>
    obtain ⟨k3, v3⟩ := hd
    simp only [List.map_cons, List.nodup_cons] at hnd
    by_cases hk3 : k3 = k
    · subst hk3
      have hset : aset k3 v ((k3, v3) :: t) = (k3, v) :: t := by simp [aset]
      rw [hset]
      simp only [List.map_cons, List.nodup_cons]
      exact hnd
    · simp only [aset, if_neg hk3, List.map_cons, List.nodup_cons]
      refine ⟨?_, ih hnd.2⟩
      intro hc
      rcases mem_keys_aset t k k3 v hc with h2 | h2
      · exact hk3 h2
      · exact hnd.1 h2

/-- Claim C9: the persisted structure produced by `_vault_save` contains
none of the secret fields - mnemonic, entropy, master key, path, or the
decrypted entry mirror - and every key it holds is either the re-encrypted
`entries` list, the `version` stamp, or a key already present in the
in-memory vault (devices, salts, name, metadata); the in-memory vault
itself is left untouched (the save works on a copy). -/
theorem c9_vault_save_strips_secrets (p : Prims) (ivs : Nat → Bytes) (ver : String)
    (v v2 : VaultM) (hnd : (v.map Prod.fst).Nodup)
    (h : GuiMainWindow.vault_save p ivs ver v = some v2) :
    alookup v2 kMnemonic = none
    ∧ alookup v2 kEntropy = none
    ∧ alookup v2 kMasterKey = none
    ∧ alookup v2 kEntriesDecrypted = none
    ∧ alookup v2 kPath = none
    ∧ (∀ k, (alookup v2 k).isSome = true →
        k = kEntries ∨ k = kVersion ∨ (alookup v k).isSome = true) := by
  simp only [GuiMainWindow.vault_save] at h
  split at h
  · exact Option.noConfusion h
  · next ents hents =>
    injection h with h2
    subst h2
    have hnd1 : ((aset kEntries (VVal.vencs ents) v).map Prod.fst).Nodup :=
      nodup_keys_aset v kEntries (VVal.vencs ents) hnd
    have herased : ∀ k ∈ GuiMainWindow.SECRET_KEYS,
        alookup (GuiMainWindow.SECRET_KEYS.foldl (fun acc k2 => aerase k2 acc)
          (aset kEntries (VVal.vencs ents) v)) k = none :=
      fun k hk => alookup_foldl_aerase GuiMainWindow.SECRET_KEYS _ hnd1 k hk
    refine ⟨?_, ?_, ?_, ?_, ?_, ?_⟩
    · rw [alookup_aset_ne _ _ _ _ (by decide)]
      exact herased kMnemonic (by decide)
    · rw [alookup_aset_ne _ _ _ _ (by decide)]
      exact herased kEntropy (by decide)
    · rw [alookup_aset_ne _ _ _ _ (by decide)]
      exact herased kMasterKey (by decide)
    · rw [alookup_aset_ne _ _ _ _ (by decide)]
      exact herased kEntriesDecrypted (by decide)
    · rw [alookup_aset_ne _ _ _ _ (by decide)]
      exact herased kPath (by decide)
    · intro k hk
      by_cases hkv : k = kVersion
      · exact Or.inr (Or.inl hkv)
      · rw [alookup_aset_ne _ _ kVersion _ (fun hc => hkv hc.symm)] at hk
        have hk2 : k ∈ (GuiMainWindow.SECRET_KEYS.foldl (fun acc k2 => aerase k2 acc)
            (aset kEntries (VVal.vencs ents) v)).map Prod.fst :=
          mem_keys_of_alookup_isSome _ _ hk
        have hk3 : k ∈ (aset kEntries (VVal.vencs ents) v).map Prod.fst :=
          (keys_foldl_aerase_sublist _ _).subset hk2
        rcases mem_keys_aset v kEntries k (VVal.vencs ents) hk3 with h4 | h4
        · exact Or.inl h4
        · exact Or.inr (Or.inr (alookup_isSome_of_mem_keys v k h4))

/-- Witness for C9 at the concrete vault `cV9` holding every secret. -/
theorem c9_vault_save_strips_secrets_witness :
    alookup cV9Saved kMnemonic = none
    ∧ alookup cV9Saved kEntropy = none
    ∧ alookup cV9Saved kMasterKey = none
    ∧ alookup cV9Saved kEntriesDecrypted = none
    ∧ alookup cV9Saved kPath = none
    ∧ (∀ k, (alookup cV9Saved k).isSome = true →
        k = kEntries ∨ k = kVersion ∨ (alookup cV9 k).isSome = true) :=
  c9_vault_save_strips_secrets cP0 (fun _ => cIv0) sTwo cV9 cV9Saved (by decide) (by decide)

/-! ## Chunking invariants -/

theorem set_append_length {α : Type} : ∀ (l : List α) (x v : α),
    (l ++ [x]).set l.length v = l ++ [v] := by
  intro l
  induction l with
  | nil => intro x v; rfl
  | cons y t ih =>
    intro x v
    simp only [List.cons_append, List.length_cons, List.set_cons_succ]
    rw [ih x v]

theorem flatten_map_acts_set_last (a : Dict) : ∀ (ds : List FrameD) (idx : Nat)
    (hlt : idx < ds.length), idx + 1 = ds.length → ∀ (j : Nat),
    ((ds.set idx (FrameD.mk j ((ds[idx]).acts ++ [a]))).map FrameD.acts).flatten
      = (ds.map FrameD.acts).flatten ++ [a] := by
  intro ds
  induction ds with
  | nil =>
    intro idx hlt
    simp at hlt
  | cons x t ih =>
    intro idx hlt hidx j
    cases t with
    | nil =>
      have h0 : idx = 0 := by
        simp only [List.length_cons, List.length_nil] at hidx
        omega
      subst h0
      simp
    | cons y t2 =>
      obtain ⟨m, rfl⟩ : ∃ m, idx = m + 1 := by
        refine ⟨idx - 1, ?_⟩
        simp only [List.length_cons] at hidx
        omega
      have hlt2 : m < (y :: t2).length := by
        simp only [List.length_cons] at hlt ⊢
        omega
      have hidx2 : m + 1 = (y :: t2).length := by
        simp only [List.length_cons] at hidx ⊢
        omega
      simp only [List.set_cons_succ, List.map_cons, List.flatten_cons,
        List.getElem_cons_succ]
      rw [ih m hlt2 hidx2 j]
      simp [List.flatten_cons, List.append_assoc]

theorem chunkStep_inv (st : Nat × List FrameD) (a : Dict) (hinv : ChunkInv st) :
    ChunkInv (chunkStep st a)
    ∧ ((chunkStep st a).2.map FrameD.acts).flatten = (st.2.map FrameD.acts).flatten ++ [a]
    ∧ st.2.length ≤ (chunkStep st a).2.length
    ∧ 1 ≤ (chunkStep st a).2.length := by
  obtain ⟨hidx, hi, hsz⟩ := hinv
  obtain ⟨idx, ds⟩ := st
  simp only at hidx hi hsz
  by_cases hcase : ds.length ≤ idx
  · -- a new data_dict is appended, the action goes into it
    have hidx2 : idx = ds.length := by omega
    subst hidx2
    have h1 : (ds ++ [FrameD.mk ds.length []])[ds.length]? = some (FrameD.mk ds.length []) :=
      List.getElem?_concat_length ds _
    have h2 : (ds ++ [FrameD.mk ds.length []]).set ds.length
        (FrameD.mk ds.length ([] ++ [a])) = ds ++ [FrameD.mk ds.length [a]] :=
      set_append_length ds _ _
    have h3 : (ds ++ [FrameD.mk ds.length [a]])[ds.length]? = some (FrameD.mk ds.length [a]) :=
      List.getElem?_concat_length ds _
    simp only [chunkStep, if_pos hcase, h1, h2, h3]
    have hget : ∀ k (h : k < (ds ++ [FrameD.mk ds.length [a]]).length),
        (ds ++ [FrameD.mk ds.length [a]])[k] =
          if hk : k < ds.length then ds[k] else FrameD.mk ds.length [a] := by
      intro k h
      by_cases hk : k < ds.length
      · rw [dif_pos hk]
        exact List.getElem_append_left hk
      · rw [dif_neg hk]
        simp only [List.length_append, List.length_singleton] at h
        have hke : k = ds.length := by omega
        exact List.getElem_concat_length ds _ k hke _
    have hflat : ((ds ++ [FrameD.mk ds.length [a]]).map FrameD.acts).flatten
        = (ds.map FrameD.acts).flatten ++ [a] := by
      simp [List.map_append, List.flatten_append]
    have hinvs : ∀ (idx2 : Nat), (idx2 = ds.length + 1 ∨ idx2 = ds.length) →
        (QR_LIMIT_BYTES ≤ (frameInner ds.length [a]).length ∨ idx2 = ds.length) →
        ChunkInv (idx2, ds ++ [FrameD.mk ds.length [a]]) := by
      intro idx2 hidx2 hbig
      refine ⟨?_, ?_, ?_⟩
      · simp only [List.length_append, List.length_singleton]
        omega
      · intro k h
        rw [hget k h]
        by_cases hk : k < ds.length
        · rw [dif_pos hk]
          exact hi k hk
        · rw [dif_neg hk]
          simp only [List.length_append, List.length_singleton] at h
          have hke : k = ds.length := by omega
          subst hke
          rfl
      · intro k h hne
        rw [hget k h]
        by_cases hk : k < ds.length
        · rw [dif_pos hk]
          exact hsz k hk (by omega)
        · rw [dif_neg hk]
          simp only [List.length_append, List.length_singleton] at h
          have hke : k = ds.length := by omega
          subst hke
          rcases hbig with hbig | hbig
          · exact hbig
          · omega
    by_cases hbig : QR_LIMIT_BYTES ≤ (frameInner ds.length [a]).length
    · rw [if_pos hbig]
      exact ⟨hinvs _ (Or.inl rfl) (Or.inl hbig), hflat, by simp,
        by simp [List.length_append]⟩
    · rw [if_neg hbig]
      exact ⟨hinvs _ (Or.inr rfl) (Or.inr rfl), hflat, by simp,
        by simp [List.length_append]⟩
  · -- the action is appended to the data_dict at the write index
    have hlt : idx < ds.length := by omega
    have hidx2 : idx + 1 = ds.length := by omega
    have hd : ds[idx]? = some (ds[idx]) := List.getElem?_eq_getElem hlt
    have hdi : (ds[idx]).i = idx := hi idx hlt
    have h2 : FrameD.mk (ds[idx]).i ((ds[idx]).acts ++ [a])
        = FrameD.mk idx ((ds[idx]).acts ++ [a]) := by rw [hdi]
    have h3 : (ds.set idx (FrameD.mk idx ((ds[idx]).acts ++ [a])))[idx]?
        = some (FrameD.mk idx ((ds[idx]).acts ++ [a])) :=
      List.getElem?_set_self hlt
    simp only [chunkStep, if_neg hcase, hd, h2, h3]
    have hget : ∀ k (h : k < ds.length),
        have h2 : k < (ds.set idx (FrameD.mk idx ((ds[idx]).acts ++ [a]))).length := by
          simp only [List.length_set]
          omega
        (ds.set idx (FrameD.mk idx ((ds[idx]).acts ++ [a])))[k] =
          if k = idx then FrameD.mk idx ((ds[idx]).acts ++ [a]) else ds[k] := by
      intro k h
      by_cases hk : k = idx
      · subst hk
        rw [if_pos rfl]
        exact List.getElem_set_self _
      · rw [if_neg hk]
        exact List.getElem_set_ne (fun hc => hk hc.symm) _
    have hflat := flatten_map_acts_set_last a ds idx hlt hidx2 idx
    have hinvs : ∀ (idx2 : Nat), (idx2 = idx + 1 ∨ idx2 = idx) →
        (QR_LIMIT_BYTES ≤ (frameInner idx ((ds[idx]).acts ++ [a])).length
          ∨ idx2 = idx) →
        ChunkInv (idx2, ds.set idx (FrameD.mk idx ((ds[idx]).acts ++ [a]))) := by
      intro idx2 hidx3 hbig
      refine ⟨?_, ?_, ?_⟩
      · simp only [List.length_set]
        omega
      · intro k h
        simp only [List.length_set] at h
        rw [hget k h]
        by_cases hk : k = idx
        · subst hk
          rw [if_pos rfl]
        · rw [if_neg hk]
          exact hi k h
      · intro k h hne
        simp only [List.length_set] at h
        rw [hget k h]
        by_cases hk : k = idx
        · subst hk
          rw [if_pos rfl]
          rcases hbig with hbig | hbig
          · exact hbig
          · omega
        · rw [if_neg hk]
          exact hsz k h (by omega)
    by_cases hbig : QR_LIMIT_BYTES ≤ (frameInner idx ((ds[idx]).acts ++ [a])).length
    · rw [if_pos hbig]
      exact ⟨hinvs _ (Or.inl rfl) (Or.inl hbig), hflat, by simp, by simp; omega⟩
    · rw [if_neg hbig]
      exact ⟨hinvs _ (Or.inr rfl) (Or.inr rfl), hflat, by simp, by simp; omega⟩

theorem foldl_chunk_inv : ∀ (actions : List Dict) (st : Nat × List FrameD), ChunkInv st →
    ChunkInv (actions.foldl chunkStep st)
    ∧ ((actions.foldl chunkStep st).2.map FrameD.acts).flatten
      = (st.2.map FrameD.acts).flatten ++ actions
    ∧ st.2.length ≤ (actions.foldl chunkStep st).2.length := by
  intro actions
  induction actions with
  | nil =>
    intro st h
    exact ⟨h, by simp, le_refl _⟩
  | cons a rest ih =>
    intro st h
    obtain ⟨h1, h2, h3, _⟩ := chunkStep_inv st a h
    obtain ⟨h4, h5, h6⟩ := ih (chunkStep st a) h1
    refine ⟨h4, ?_, le_trans h3 h6⟩
    rw [List.foldl_cons, h5, h2, List.append_assoc]
    rfl

theorem data_dicts_inv (actions : List Dict) :
    ChunkInv ((actions.foldl chunkStep (0, [])).1, data_dicts actions)
    ∧ ((data_dicts actions).map FrameD.acts).flatten = actions := by
  have h0 : ChunkInv (0, ([] : List FrameD)) := by
    refine ⟨Or.inl rfl, ?_, ?_⟩ <;> intro k h <;> simp at h
  obtain ⟨h1, h2, _⟩ := foldl_chunk_inv actions (0, []) h0
  exact ⟨h1, by simpa using h2⟩

theorem data_dicts_i (actions : List Dict) :
    ∀ k (h : k < (data_dicts actions).length), ((data_dicts actions)[k]).i = k :=
  (data_dicts_inv actions).1.2.1

theorem data_dicts_flatten (actions : List Dict) :
    ((data_dicts actions).map FrameD.acts).flatten = actions :=
  (data_dicts_inv actions).2

theorem data_dicts_sizes (actions : List Dict) :
    ∀ k (h : k < (data_dicts actions).length), k + 1 < (data_dicts actions).length →
      QR_LIMIT_BYTES ≤ (frameInner k (((data_dicts actions)[k]).acts)).length := by
  intro k h hk1
  obtain ⟨⟨hidx, _, hsz⟩, _⟩ := data_dicts_inv actions
  exact hsz k h (by simp only at hidx ⊢; omega)

theorem data_dicts_ne_nil (actions : List Dict) (h : actions ≠ []) :
    data_dicts actions ≠ [] := by
  cases actions with
  | nil => exact absurd rfl h
  | cons a rest =>
    have h0 : ChunkInv (0, ([] : List FrameD)) := by
      refine ⟨Or.inl rfl, ?_, ?_⟩ <;> intro k hh <;> simp at hh
    obtain ⟨h1, _, _, h4⟩ := chunkStep_inv (0, []) a h0
    obtain ⟨_, _, h6⟩ := foldl_chunk_inv rest (chunkStep (0, []) a) h1
    intro hc
    have : (data_dicts (a :: rest)).length = 0 := by rw [hc]; rfl
    simp only [data_dicts, List.foldl_cons] at this
    omega

/-! ## QR frame list facts -/

theorem qr_frames_length (actions : List Dict) :
    (qr_frames actions).length = (data_dicts actions).length := by
  simp [qr_frames]

theorem qr_frames_n (actions : List Dict) :
    ∀ f ∈ qr_frames actions, f.n = (qr_frames actions).length := by
  intro f hf
  rw [qr_frames_length]
  simp only [qr_frames, List.mem_map] at hf
  obtain ⟨d, _, rfl⟩ := hf
  rfl

theorem qr_frames_get (actions : List Dict) (k : Nat) (h : k < (qr_frames actions).length)
    (hk2 : k < (data_dicts actions).length) :
    ((qr_frames actions)[k]).i = k
    ∧ ((qr_frames actions)[k]).n = (qr_frames actions).length
    ∧ ((qr_frames actions)[k]).acts = ((data_dicts actions)[k]).acts := by
  refine ⟨?_, ?_, ?_⟩
  · simp only [qr_frames, List.getElem_map]
    exact data_dicts_i actions k hk2
  · simp only [qr_frames, List.getElem_map, qr_frames_length]
    rw [List.length_map]
  · simp only [qr_frames, List.getElem_map]

theorem qr_frames_acts_flatten (actions : List Dict) :
    ((qr_frames actions).map QRFrame.acts).flatten = actions := by
  have : (qr_frames actions).map QRFrame.acts = (data_dicts actions).map FrameD.acts := by
    simp [qr_frames, List.map_map]
  rw [this, data_dicts_flatten]

/-! ## Scanner state lemmas -/

theorem scanStep_done (acc : List Dict) (f : QRFrame) : scanStep (acc, true) f = (acc, true) :=
  rfl

theorem foldl_scan_done : ∀ (feed : List QRFrame) (acc : List Dict),
    List.foldl scanStep (acc, true) feed = (acc, true) := by
  intro feed
  induction feed with
  | nil => intro acc; rfl
  | cons f feed ih =>
    intro acc
    rw [List.foldl_cons, scanStep_done]
    exact ih acc

theorem dedupAppend_eq_append : ∀ (B A : List Dict), (A ++ B).Nodup →
    dedupAppend A B = A ++ B := by
  intro B
  induction B with
  | nil =>
    intro A _
    simp [dedupAppend]
  | cons b B ih =>
    intro A h
    have hbA : ¬ b ∈ A := by
      have hd := List.disjoint_of_nodup_append h
      intro hc
      exact hd hc (by simp)
    have h2 : ((A ++ [b]) ++ B).Nodup := by
      rw [List.append_assoc, List.singleton_append]
      exact h
    have h3 := ih (A ++ [b]) h2
    simp only [dedupAppend, List.foldl_cons, if_neg hbA] at h3 ⊢
    rw [h3, List.append_assoc, List.singleton_append]

theorem dedupAppend_subset : ∀ (B A : List Dict), (∀ b ∈ B, b ∈ A) →
    dedupAppend A B = A := by
  intro B
  induction B with
  | nil => intro A _; rfl
  | cons b B ih =>
    intro A h
    simp only [dedupAppend, List.foldl_cons, if_pos (h b (by simp))]
    exact ih A fun x hx => h x (by simp [hx])

theorem scan_feed_run (actions : List Dict) (hnd : actions.Nodup) :
    ∀ (seen todo feed : List QRFrame), FeedOf seen todo feed →
      seen.reverse ++ todo = qr_frames actions → todo ≠ [] →
      List.foldl scanStep (((seen.reverse.map QRFrame.acts).flatten), false) feed
        = (actions, true) := by
  intro seen todo feed hf
  induction hf with
  | done seen2 =>
    intro _ hne
    exact absurd rfl hne
  | @deliver seen todo feed f hsub ih =>
    intro hinv hne
    have hlen := congrArg List.length hinv
    simp only [List.length_append, List.length_cons, List.length_reverse] at hlen
    have ht : seen.reverse.length < (qr_frames actions).length := by
      simp only [List.length_reverse]
      omega
    have hfget : (qr_frames actions)[seen.reverse.length] = f := by
      have h1 : (seen.reverse ++ f :: todo)[seen.reverse.length]? = some f := by
        rw [List.getElem?_append_right (le_refl _)]
        simp
      rw [hinv] at h1
      rw [List.getElem?_eq_getElem ht] at h1
      exact Option.some.inj h1
    obtain ⟨hfi, hfn, _⟩ := qr_frames_get actions seen.reverse.length ht
      (by rw [← qr_frames_length actions]; exact ht)
    rw [hfget] at hfi hfn
    have hacc : actions
        = ((seen.reverse.map QRFrame.acts).flatten ++ f.acts)
          ++ (todo.map QRFrame.acts).flatten := by
      rw [← qr_frames_acts_flatten actions, ← hinv]
      simp [List.map_append, List.flatten_append, List.append_assoc]
    have hpre : (((seen.reverse.map QRFrame.acts).flatten) ++ f.acts).Nodup := by
      refine List.Nodup.sublist ?_ hnd
      rw [hacc]
      exact List.sublist_append_left _ _
    have hded : dedupAppend ((seen.reverse.map QRFrame.acts).flatten) f.acts
        = ((seen.reverse.map QRFrame.acts).flatten) ++ f.acts :=
      dedupAppend_eq_append f.acts _ hpre
    rw [List.foldl_cons]
    have hstep1 : scanStep (((seen.reverse.map QRFrame.acts).flatten), false) f
        = if f.i = f.n - 1 then (((seen.reverse.map QRFrame.acts).flatten) ++ f.acts, true)
          else (((seen.reverse.map QRFrame.acts).flatten) ++ f.acts, false) := by
      simp only [scanStep, Bool.false_eq_true, if_false, hded]
      rw [if_neg (by rw [hfi, hfn]; simp only [List.length_reverse] at *; omega)]
    rw [hstep1]
    cases htodo : todo with
    | nil =>
      subst htodo
      have hlast : f.i = f.n - 1 := by
        rw [hfi, hfn]
        simp only [List.length_cons, List.length_nil, List.length_reverse] at hlen ⊢
        omega
      rw [if_pos hlast]
      have hall : (seen.reverse.map QRFrame.acts).flatten ++ f.acts = actions := by
        rw [hacc]
        simp
      rw [hall]
      exact foldl_scan_done feed actions
    | cons g todo2 =>
      subst htodo
      have hnotlast : ¬ f.i = f.n - 1 := by
        rw [hfi, hfn]
        simp only [List.length_cons, List.length_reverse] at hlen ⊢
        omega
      rw [if_neg hnotlast]
      have hinv2 : (f :: seen).reverse ++ (g :: todo2) = qr_frames actions := by
        rw [List.reverse_cons, List.append_assoc, List.singleton_append]
        exact hinv
      have hacc2 : ((f :: seen).reverse.map QRFrame.acts).flatten
          = ((seen.reverse.map QRFrame.acts).flatten) ++ f.acts := by
        rw [List.reverse_cons]
        simp [List.map_append, List.flatten_append]
      have := ih hinv2 (by simp)
      rw [hacc2] at this
      exact this
  | @again seen todo feed g hg hsub ih =>
    intro hinv hne
    have hlen := congrArg List.length hinv
    simp only [List.length_append, List.length_reverse] at hlen
    have htodo1 : 1 ≤ todo.length := by
      cases todo with
      | nil => exact absurd rfl hne
      | cons x t => simp
    have hgrev : g ∈ seen.reverse := List.mem_reverse.2 hg
    obtain ⟨s, hs, hsget⟩ := List.mem_iff_getElem.1 hgrev
    have hsN : s < (qr_frames actions).length := by
      simp only [List.length_reverse] at hs
      omega
    have hgget : (qr_frames actions)[s] = g := by
      have h1 : (seen.reverse ++ todo)[s]? = some g := by
        rw [List.getElem?_append, if_pos hs, List.getElem?_eq_getElem hs, hsget]
      rw [hinv] at h1
      rw [List.getElem?_eq_getElem hsN] at h1
      exact Option.some.inj h1
    obtain ⟨hgi, hgn, _⟩ := qr_frames_get actions s hsN
      (by rw [← qr_frames_length actions]; exact hsN)
    rw [hgget] at hgi hgn
    rw [List.foldl_cons]
    have hsub2 : ∀ a ∈ g.acts, a ∈ (seen.reverse.map QRFrame.acts).flatten := by
      intro a ha
      exact List.mem_flatten.2 ⟨g.acts, List.mem_map.2 ⟨g, hgrev, rfl⟩, ha⟩
    have hstep : scanStep (((seen.reverse.map QRFrame.acts).flatten), false) g
        = (((seen.reverse.map QRFrame.acts).flatten), false) := by
      simp only [scanStep, Bool.false_eq_true, if_false]
      rw [dedupAppend_subset g.acts _ hsub2]
      rw [if_neg (by rw [hgi, hgn]; simp only [List.length_reverse] at hs; omega)]
      rw [if_neg (by rw [hgi, hgn]; simp only [List.length_reverse] at hs; omega)]
    rw [hstep]
    exact ih hinv hne

theorem FeedOf_self : ∀ (todo seen : List QRFrame), FeedOf seen todo todo := by
  intro todo
  induction todo with
  | nil => intro seen; exact FeedOf.done seen
  | cons f todo ih => intro seen; exact FeedOf.deliver f (ih (f :: seen))

/-- Claim C3 (amended): for every nonempty action list with pairwise
distinct actions, feeding the encoder's frames to the scanner in
increasing part-index order, with repeats of already-seen frames
interleaved arbitrarily (camera-burst duplicates), yields exactly the
original action list at the moment the frame with
`part_index == part_count - 1` is processed, and the scan terminates
there. -/
theorem c3_in_order_scan_reconstructs (actions : List Dict)
    (hne : actions ≠ []) (hnd : actions.Nodup) (feed : List QRFrame)
    (hf : FeedOf [] (qr_frames actions) feed) :
    qr_scan feed = (actions, true) := by
  have hframes : qr_frames actions ≠ [] := by
    intro hc
    apply data_dicts_ne_nil actions hne
    have := congrArg List.length hc
    rw [qr_frames_length] at this
    exact List.eq_nil_of_length_eq_zero this
  have := scan_feed_run actions hnd [] (qr_frames actions) feed hf (by simp) hframes
  simpa [qr_scan] using this

/-- Witness for C3 (amended) at a concrete single-frame action list. -/
theorem c3_in_order_scan_reconstructs_witness :
    qr_scan (qr_frames [[(kAct, kSync)]]) = ([[(kAct, kSync)]], true) :=
  c3_in_order_scan_reconstructs [[(kAct, kSync)]] (by decide) (by decide)
    (qr_frames [[(kAct, kSync)]]) (FeedOf_self _ [])

set_option maxRecDepth 40000 in
/-- Counterexample for C3 as stated: two large actions are encoded into
two frames; feeding the frames in reversed order makes the scanner see the
final-index frame first, terminate the scan, and output only the second
action - not the original list, although the final-index frame has been
seen.  Decoding in "any order" therefore does not reconstruct the original
action list. -/
theorem c3_counterexample :
    (qr_frames [bigA sOne, bigA sTwo]).length = 2
    ∧ (qr_scan (qr_frames [bigA sOne, bigA sTwo]).reverse).2 = true
    ∧ ¬ (qr_scan (qr_frames [bigA sOne, bigA sTwo]).reverse).1
        = [bigA sOne, bigA sTwo] := by
  refine ⟨by decide, by decide, by decide⟩

/-- Claim C4 (amended): for every nonempty action list the encoder
produces at least one frame; every frame carries its position as
`part_index` and the back-filled `part_count` equal to the total number of
frames; the concatenation of the frames' action lists is the original
action list; and every frame except the last has a serialized payload
(before the `"n"` back-fill, exactly the string whose length the source
compares with the budget) of at least `QR_LIMIT_BYTES = 500` bytes - the
greedy packing rule.  The frame count is the one this greedy rule
determines, which in general differs from ⌈size/budget⌉. -/
theorem c4_greedy_frame_chunking (actions : List Dict) (hne : actions ≠ []) :
    1 ≤ (qr_frames actions).length
    ∧ (∀ k (h : k < (qr_frames actions).length),
        ((qr_frames actions)[k]).i = k
        ∧ ((qr_frames actions)[k]).n = (qr_frames actions).length)
    ∧ ((qr_frames actions).map QRFrame.acts).flatten = actions
    ∧ (∀ k (h : k < (qr_frames actions).length), k + 1 < (qr_frames actions).length →
        QR_LIMIT_BYTES ≤ (frameInner k (((qr_frames actions)[k]).acts)).length) := by
  refine ⟨?_, ?_, qr_frames_acts_flatten actions, ?_⟩
  · have h1 := data_dicts_ne_nil actions hne
    rw [qr_frames_length]
    cases hd : data_dicts actions with
    | nil => exact absurd hd h1
    | cons x t => simp
  · intro k h
    have hk2 : k < (data_dicts actions).length := by
      rw [← qr_frames_length actions]
      exact h
    exact ⟨(qr_frames_get actions k h hk2).1, (qr_frames_get actions k h hk2).2.1⟩
  · intro k h hk1
    have hk2 : k < (data_dicts actions).length := by
      rw [← qr_frames_length actions]
      exact h
    obtain ⟨_, _, hacts⟩ := qr_frames_get actions k h hk2
    rw [hacts]
    refine data_dicts_sizes actions k ?_ ?_
    · rw [← qr_frames_length actions]
      exact hk1
/-- Witness for C4 (amended) at a concrete one-frame action list. -/
theorem c4_greedy_frame_chunking_witness :
    1 ≤ (qr_frames [[(kAct, kSync)]]).length
    ∧ (∀ k (h : k < (qr_frames [[(kAct, kSync)]]).length),
        ((qr_frames [[(kAct, kSync)]])[k]).i = k
        ∧ ((qr_frames [[(kAct, kSync)]])[k]).n = (qr_frames [[(kAct, kSync)]]).length)
    ∧ ((qr_frames [[(kAct, kSync)]]).map QRFrame.acts).flatten = [[(kAct, kSync)]]
    ∧ (∀ k (h : k < (qr_frames [[(kAct, kSync)]]).length),
        k + 1 < (qr_frames [[(kAct, kSync)]]).length →
        QR_LIMIT_BYTES ≤ (frameInner k (((qr_frames [[(kAct, kSync)]])[k]).acts)).length) :=
  c4_greedy_frame_chunking [[(kAct, kSync)]] (by decide)

set_option maxRecDepth 40000 in
/-- Counterexample for C4 as stated: two actions whose combined compact
encoding is 1267 bytes (well over the 500-byte budget) produce 2 frames,
not ⌈1267/500⌉ = 3 - the encoder closes a frame only after it already
reached the budget, so frames may exceed 500 bytes and the frame count is
below the claimed ceiling. -/
theorem c4_counterexample :
    spec_combined_size [bigA sOne, bigA sTwo] = 1267
    ∧ QR_LIMIT_BYTES < spec_combined_size [bigA sOne, bigA sTwo]
    ∧ (spec_combined_size [bigA sOne, bigA sTwo] + QR_LIMIT_BYTES - 1) / QR_LIMIT_BYTES = 3
    ∧ (qr_frames [bigA sOne, bigA sTwo]).length = 2
    ∧ ¬ (qr_frames [bigA sOne, bigA sTwo]).length = 3 := by
  refine ⟨by decide, by decide, by decide, by decide, by decide⟩
